import Mathlib

set_option maxRecDepth 8192

/-!
Verification of the storage subsystem of a browser-local student-records
application.  The development shallowly embeds the TypeScript sources:

* `compression.ts` — `processDataForCompression`, `compressData`,
  `decompressData` (run-length codec over canonical JSON text);
* `storage.ts` — `getStorageItem`, `setStorageItem`, `removeStorageItem`,
  `hasStorageItem`, `clearUserStorage` over a key/value storage area;
* `fixStorage.ts` — `fixStorageIssues` (the startup sanitizer);
* `useRealtimeUpdates.ts` — `recordUpdate`, `checkForUpdates`, `getSharedData`;
* `useStudentData.ts` / `useTeacherData.ts` — `deleteTeacher`, `updateStudent`.

JSON-serializable values are modelled by the inductive `JValue` (numbers are
modelled as integers; floating point fractions and host-specific extremes are
outside the model).  The host primitives `JSON.stringify` / `JSON.parse` are
modelled by an executable serializer `stringifyV` and recursive-descent
reader `jsonParse` over `List Char`, matching the canonical output format of
`JSON.stringify` (no insignificant whitespace).  Strings and keys are
`List Char`; the key/value storage area is an association list with unique
keys kept in insertion order, matching `localStorage` semantics.
-/

/-! ### Characters and decimal digits -/

/-- The internal RLE sentinel byte `\x00` used by `compressData`. -/
def sentinel : Char := Char.ofNat 0

/-- The decimal digit character for `n < 10` (`'0'` has code 48). -/
def digitChar (n : Nat) : Char := Char.ofNat (48 + n)

/-- Decimal digit test, mirroring the usual `'0' ≤ c ≤ '9'` check. -/
def isDigitC (c : Char) : Bool := decide (48 ≤ c.toNat) && decide (c.toNat ≤ 57)

/-- Numeric value of a decimal digit character. -/
def digitVal (c : Char) : Nat := c.toNat - 48

/-- Lower-case hexadecimal digit character for `n < 16`. -/
def hexDigitChar (n : Nat) : Char :=
  if n < 10 then digitChar n else Char.ofNat (97 + n - 10)

/-- Decimal digits of `n`, most significant first, with explicit fuel
(`fuel > n` suffices); mirrors the decimal printing of JS numbers. -/
def natDigitsAux : Nat → Nat → List Char
  | 0, _ => []
  | fuel + 1, n =>
    if n < 10 then [digitChar n]
    else natDigitsAux fuel (n / 10) ++ [digitChar (n % 10)]

/-- Decimal digits of `n`, most significant first. -/
def natDigits (n : Nat) : List Char := natDigitsAux (n + 1) n

/-- Decimal representation of an integer, as emitted by `JSON.stringify`
for integral JS numbers. -/
def intChars (i : Int) : List Char :=
  if i < 0 then '-' :: natDigits i.natAbs else natDigits i.toNat

/-! ### JSON values -/

/-- JSON-serializable values.  Object fields are kept as an ordered list of
key/value pairs (JS objects preserve insertion order). -/
inductive JValue where
  | null : JValue
  | bool : Bool → JValue
  | num : Int → JValue
  | str : List Char → JValue
  | arr : List JValue → JValue
  | obj : List (List Char × JValue) → JValue

/- Structural equality test on JSON values.  It models the `===` comparisons
the source performs on `id` fields (exact for the string/number ids the
application uses; JS reference equality on compound values is approximated
structurally). -/
mutual
def jeqb : JValue → JValue → Bool
  | .null, .null => true
  | .bool a, .bool b => a == b
  | .num a, .num b => a == b
  | .str a, .str b => a == b
  | .arr a, .arr b => jeqbList a b
  | .obj a, .obj b => jeqbFields a b
  | _, _ => false

def jeqbList : List JValue → List JValue → Bool
  | [], [] => true
  | a :: as', b :: bs' => jeqb a b && jeqbList as' bs'
  | _, _ => false

def jeqbFields : List (List Char × JValue) → List (List Char × JValue) → Bool
  | [], [] => true
  | (k1, v1) :: as', (k2, v2) :: bs' => k1 == k2 && jeqb v1 v2 && jeqbFields as' bs'
  | _, _ => false
end

/-- Equality of possibly-missing values, modelling `x === y` where a missing
object property reads as `undefined` (and `undefined === undefined` is true). -/
def jeqbOpt : Option JValue → Option JValue → Bool
  | none, none => true
  | some a, some b => jeqb a b
  | _, _ => false

/-! ### `JSON.stringify` -/

/-- Escape of a single character inside a JSON string literal, as produced by
`JSON.stringify`: the two-character escapes for quote, backslash and the named
control characters, `\u00XX` for the remaining control characters, and the
character itself otherwise. -/
def escChar (c : Char) : List Char :=
  if c = '"' then ['\\', '"']
  else if c = '\\' then ['\\', '\\']
  else if c.toNat = 8 then ['\\', 'b']
  else if c.toNat = 9 then ['\\', 't']
  else if c.toNat = 10 then ['\\', 'n']
  else if c.toNat = 12 then ['\\', 'f']
  else if c.toNat = 13 then ['\\', 'r']
  else if c.toNat < 32 then
    ['\\', 'u', '0', '0', hexDigitChar (c.toNat / 16), hexDigitChar (c.toNat % 16)]
  else [c]

/-- Escape every character of a string body. -/
def escapeStr : List Char → List Char
  | [] => []
  | c :: cs => escChar c ++ escapeStr cs

/- Canonical JSON text of a value, as produced by `JSON.stringify` (which
emits no insignificant whitespace). -/
mutual
def stringifyV : JValue → List Char
  | .null => "null".data
  | .bool true => "true".data
  | .bool false => "false".data
  | .num i => intChars i
  | .str s => '"' :: escapeStr s ++ ['"']
  | .arr vs => '[' :: stringifyItems vs ++ [']']
  | .obj fs => '\x7b' :: stringifyFields fs ++ ['\x7d']

def stringifyItems : List JValue → List Char
  | [] => []
  | [v] => stringifyV v
  | v :: rest => stringifyV v ++ ',' :: stringifyItems rest

def stringifyFields : List (List Char × JValue) → List Char
  | [] => []
  | [(k, v)] => '"' :: escapeStr k ++ '"' :: ':' :: stringifyV v
  | (k, v) :: rest =>
    '"' :: escapeStr k ++ '"' :: ':' :: stringifyV v ++ ',' :: stringifyFields rest
end

/-! ### `JSON.parse` -/

/-- Value of a hexadecimal digit character, if any. -/
def hexVal (c : Char) : Option Nat :=
  if 48 ≤ c.toNat ∧ c.toNat ≤ 57 then some (c.toNat - 48)
  else if 97 ≤ c.toNat ∧ c.toNat ≤ 102 then some (c.toNat - 87)
  else if 65 ≤ c.toNat ∧ c.toNat ≤ 70 then some (c.toNat - 55)
  else none

/-- Read a JSON string body (the opening quote already consumed), returning
the unescaped body and the remaining input.  Raw control characters are
rejected, as in JSON. -/
def parseStrAux : List Char → Option (List Char × List Char)
  | [] => none
  | c :: cs =>
    if c = '"' then some ([], cs)
    else if c = '\\' then
      match cs with
      | [] => none
      | e :: cs2 =>
        if e = '"' then (parseStrAux cs2).map (fun p => ('"' :: p.1, p.2))
        else if e = '\\' then (parseStrAux cs2).map (fun p => ('\\' :: p.1, p.2))
        else if e = '/' then (parseStrAux cs2).map (fun p => ('/' :: p.1, p.2))
        else if e = 'b' then (parseStrAux cs2).map (fun p => (Char.ofNat 8 :: p.1, p.2))
        else if e = 'f' then (parseStrAux cs2).map (fun p => (Char.ofNat 12 :: p.1, p.2))
        else if e = 'n' then (parseStrAux cs2).map (fun p => (Char.ofNat 10 :: p.1, p.2))
        else if e = 'r' then (parseStrAux cs2).map (fun p => (Char.ofNat 13 :: p.1, p.2))
        else if e = 't' then (parseStrAux cs2).map (fun p => (Char.ofNat 9 :: p.1, p.2))
        else if e = 'u' then
          match cs2 with
          | h1 :: h2 :: h3 :: h4 :: cs3 =>
            match hexVal h1, hexVal h2, hexVal h3, hexVal h4 with
            | some a, some b, some c3, some d =>
              (parseStrAux cs3).map
                (fun p => (Char.ofNat (((a * 16 + b) * 16 + c3) * 16 + d) :: p.1, p.2))
            | _, _, _, _ => none
          | _ => none
        else none
    else if c.toNat < 32 then none
    else (parseStrAux cs).map (fun p => (c :: p.1, p.2))

/-- Read a decimal digit run into a number, stopping at the first
non-digit (the accumulator carries the value read so far). -/
def parseDigitsAux (acc : Nat) : List Char → Nat × List Char
  | [] => (acc, [])
  | c :: cs => if isDigitC c then parseDigitsAux (acc * 10 + digitVal c) cs else (acc, c :: cs)

/-- Read a JSON natural-number literal (no sign): either a single `0`, or a
digit run not starting with `0`. -/
def parseNat : List Char → Option (Nat × List Char)
  | [] => none
  | c :: cs =>
    if c = '0' then
      match cs with
      | d :: _ => if isDigitC d then none else some (0, cs)
      | [] => some (0, [])
    else if isDigitC c then some (parseDigitsAux 0 (c :: cs))
    else none

/- Recursive-descent JSON reader (fuel-indexed so that every recursive call
is structurally smaller; `jsonParse` supplies sufficient fuel).  It accepts
the canonical whitespace-free language emitted by `stringifyV`. -/
mutual
def parseVal : Nat → List Char → Option (JValue × List Char)
  | 0, _ => none
  | _ + 1, [] => none
  | fuel + 1, c :: cs =>
    if c = 'n' then
      if cs.take 3 = ['u', 'l', 'l'] then some (.null, cs.drop 3) else none
    else if c = 't' then
      if cs.take 3 = ['r', 'u', 'e'] then some (.bool true, cs.drop 3) else none
    else if c = 'f' then
      if cs.take 4 = ['a', 'l', 's', 'e'] then some (.bool false, cs.drop 4) else none
    else if c = '"' then
      (parseStrAux cs).map (fun p => (.str p.1, p.2))
    else if c = '[' then
      match cs with
      | [] => none
      | d :: cs2 =>
        if d = ']' then some (.arr [], cs2)
        else (parseItems fuel cs).map (fun p => (.arr p.1, p.2))
    else if c = '\x7b' then
      match cs with
      | [] => none
      | d :: cs2 =>
        if d = '\x7d' then some (.obj [], cs2)
        else (parseFields fuel cs).map (fun p => (.obj p.1, p.2))
    else if c = '-' then
      (parseNat cs).map (fun p => (.num (-(p.1 : Int)), p.2))
    else if isDigitC c then
      (parseNat (c :: cs)).map (fun p => (.num (p.1 : Int), p.2))
    else none

def parseItems : Nat → List Char → Option (List JValue × List Char)
  | 0, _ => none
  | fuel + 1, cs =>
    match parseVal fuel cs with
    | none => none
    | some (v, r) =>
      match r with
      | ',' :: r2 => (parseItems fuel r2).map (fun p => (v :: p.1, p.2))
      | ']' :: r2 => some ([v], r2)
      | _ => none

def parseFields : Nat → List Char → Option (List (List Char × JValue) × List Char)
  | 0, _ => none
  | fuel + 1, cs =>
    match cs with
    | '"' :: cs1 =>
      match parseStrAux cs1 with
      | none => none
      | some (k, r1) =>
        match r1 with
        | ':' :: r2 =>
          match parseVal fuel r2 with
          | none => none
          | some (v, r3) =>
            match r3 with
            | ',' :: r4 => (parseFields fuel r4).map (fun p => ((k, v) :: p.1, p.2))
            | '\x7d' :: r4 => some ([(k, v)], r4)
            | _ => none
        | _ => none
    | _ => none
end

/-- `JSON.parse` on a whole input: the reader must consume the input
exactly.  `none` models a thrown `SyntaxError`. -/
def jsonParse (s : List Char) : Option JValue :=
  match parseVal (s.length + 1) s with
  | some (v, []) => some v
  | _ => none

/- Fuel sufficient for `parseVal` to read the canonical text of a value. -/
mutual
def jfuel : JValue → Nat
  | .arr vs => 1 + itemsFuel vs
  | .obj fs => 1 + fieldsFuel fs
  | _ => 1

def itemsFuel : List JValue → Nat
  | [] => 1
  | v :: vs => 1 + max (jfuel v) (itemsFuel vs)

def fieldsFuel : List (List Char × JValue) → Nat
  | [] => 1
  | (_, v) :: fs => 1 + max (jfuel v) (fieldsFuel fs)
end

/-! ### The run-length codec (`compression.ts`) -/

/-- The special case inside `processDataForCompression`: a `data` property
holding a string of more than 1000 characters (a base64 file payload) is
kept as it is. -/
def keepRawData (k : List Char) (v : JValue) : Bool :=
  k == "data".data && (match v with | .str s => decide (1000 < s.length) | _ => false)

/- `processDataForCompression` from `compression.ts`: a deep copy that keeps
large `data` string fields (base64 file payloads) as they are and recursively
copies everything else.  On JSON values it is an identity (proved below). -/
mutual
def processDataForCompression : JValue → JValue
  | .arr items => .arr (processItems items)
  | .obj fields => .obj (processFields fields)
  | v => v

def processItems : List JValue → List JValue
  | [] => []
  | v :: rest => processDataForCompression v :: processItems rest

def processFields : List (List Char × JValue) → List (List Char × JValue)
  | [] => []
  | (k, v) :: rest =>
    (k, if keepRawData k v then v else processDataForCompression v) :: processFields rest
end

/-- Flush one run in `compressData`: runs longer than 3 become the 3-byte
unit `{sentinel, count byte, character}`, shorter runs are emitted
literally. -/
def rleFlush (count : Nat) (c : Char) : List Char :=
  if 3 < count then [sentinel, Char.ofNat count, c] else List.replicate count c

/-- The scanning loop of `compressData`: `cur` is the current run character,
`count` its multiplicity so far (capped at 255). -/
def rleLoop : List Char → Nat → Char → List Char
  | [], count, cur => rleFlush count cur
  | c :: rest, count, cur =>
    if c = cur ∧ count < 255 then rleLoop rest (count + 1) cur
    else rleFlush count cur ++ rleLoop rest 1 c

/-- The run-length encoding pass of `compressData` over the JSON text. -/
def rleEncode : List Char → List Char
  | [] => []
  | c :: rest => rleLoop rest 1 c

/-- The decoding loop of `decompressData`: a sentinel byte followed by at
least two more bytes expands to `count` copies of the character; everything
else (including a trailing truncated sentinel) is copied through. -/
def rleDecode : List Char → List Char
  | c :: cnt :: ch :: rest =>
    if c = sentinel then List.replicate cnt.toNat ch ++ rleDecode rest
    else c :: rleDecode (cnt :: ch :: rest)
  | c :: rest => c :: rleDecode rest
  | [] => []

/-- `compressData` from `compression.ts`: copy, stringify, run-length
encode.  (The internal try/catch is dead in the model: none of the involved
operations can throw on `JValue` inputs.) -/
def compressData (data : JValue) : List Char :=
  rleEncode (stringifyV (processDataForCompression data))

/-- `decompressData` from `compression.ts`: undo the run-length encoding and
parse; on failure fall back to parsing the raw input; on failure again
return `null` (the JS function returns the JS value `null`). -/
def decompressData (compressed : List Char) : JValue :=
  match jsonParse (rleDecode compressed) with
  | some v => v
  | none =>
    match jsonParse compressed with
    | some v => v
    | none => .null

/-! ### The namespaced store (`storage.ts`) -/

/-- The storage area: an association list of full key / value pairs with
unique keys, in insertion order (`localStorage` semantics). -/
abbrev Storage := List (List Char × List Char)

/-- `localStorage.getItem`. -/
def lsGet (st : Storage) (k : List Char) : Option (List Char) :=
  (st.find? (fun kv => kv.1 == k)).map (fun kv => kv.2)

/-- `localStorage.setItem`: overwrite in place, or append a fresh key. -/
def lsSet (st : Storage) (k v : List Char) : Storage :=
  if st.any (fun kv => kv.1 == k) then
    st.map (fun kv => if kv.1 == k then (k, v) else kv)
  else st ++ [(k, v)]

/-- `localStorage.removeItem`. -/
def lsRemove (st : Storage) (k : List Char) : Storage :=
  st.filter (fun kv => !(kv.1 == k))

/-- The composed full key `` `${userId}_${key}` ``. -/
def fullKey (userId key : List Char) : List Char := userId ++ '_' :: key

/-- The compressed-value tag `COMPRESSED:`. -/
def COMPRESSED : List Char := "COMPRESSED:".data

/-- The 5 MB budget `MAX_STORAGE_SIZE` from `storage.ts`. -/
def MAX_STORAGE_SIZE : Nat := 5 * 1024 * 1024

/-- `getStorageItem` from `storage.ts`.  Returns the read value together
with the storage area afterwards: a missing or empty (falsy) entry yields
the default; a `COMPRESSED:`-tagged entry is decompressed (`decompressData`
handles its own failures and never throws); otherwise the entry is
`JSON.parse`d, and on a parse error the corrupted entry is removed and the
default returned. -/
def getStorageItem (key userId : List Char) (defaultValue : JValue) (st : Storage) :
    JValue × Storage :=
  match lsGet st (fullKey userId key) with
  | none => (defaultValue, st)
  | some item =>
    if item = [] then (defaultValue, st)
    else if COMPRESSED.isPrefixOf item then
      (decompressData (item.drop COMPRESSED.length), st)
    else
      match jsonParse item with
      | some v => (v, st)
      | none => (defaultValue, lsRemove st (fullKey userId key))

/-- `setStorageItem` from `storage.ts`: values whose JSON text exceeds half
of `MAX_STORAGE_SIZE` are stored compressed under the `COMPRESSED:` tag,
smaller values as plain JSON text.  (The storage area of the model never
throws, so the quota-recovery branch of the source is not taken.) -/
def setStorageItem (key userId : List Char) (value : JValue) (st : Storage) : Storage :=
  let stringValue := stringifyV value
  if MAX_STORAGE_SIZE / 2 < stringValue.length then
    lsSet st (fullKey userId key) (COMPRESSED ++ compressData value)
  else
    lsSet st (fullKey userId key) stringValue

/-- `removeStorageItem` from `storage.ts`. -/
def removeStorageItem (key userId : List Char) (st : Storage) : Storage :=
  lsRemove st (fullKey userId key)

/-- `hasStorageItem` from `storage.ts`. -/
def hasStorageItem (key userId : List Char) (st : Storage) : Bool :=
  !(lsGet st (fullKey userId key)).isNone

/-- `clearUserStorage` from `storage.ts`: collect the keys that start with
`` `${userId}_` `` and remove each of them. -/
def clearUserStorage (userId : List Char) (st : Storage) : Storage :=
  let keys := (st.map (fun kv => kv.1)).filter (fun k => (userId ++ ['_']).isPrefixOf k)
  keys.foldl (fun acc k => lsRemove acc k) st

/-! ### The storage sanitizer (`fixStorage.ts`) -/

/-- The corruption check of `fixStorageIssues` on one stored value: falsy
(empty) values and `COMPRESSED:`-tagged values are not corrupted; otherwise
the value is corrupted exactly when `JSON.parse` fails. -/
def valueIsCorrupted (v : List Char) : Bool :=
  if v = [] then false
  else if COMPRESSED.isPrefixOf v then false
  else (jsonParse v).isNone

/-- `String.prototype.includes`: is `pat` a contiguous substring? -/
def containsPattern (pat : List Char) : List Char → Bool
  | [] => pat.isEmpty
  | c :: rest => pat.isPrefixOf (c :: rest) || containsPattern pat rest

/-- The allowlist filter of `fixStorageIssues`: the exact session keys, the
substring patterns for per-owner collections, and any key whose stored value
carries the compressed tag. -/
def isImportantKey (st : Storage) (k : List Char) : Bool :=
  k == "currentUser".data || k == "isLoggedIn".data || k == "authToken".data ||
  k == "USERS_COLLECTION_KEY".data ||
  containsPattern "_current_user".data k || containsPattern "_users".data k ||
  containsPattern "_student_".data k || containsPattern "_certificates".data k ||
  containsPattern "_disability_id".data k ||
  (match lsGet st k with
   | some v => COMPRESSED.isPrefixOf v
   | none => false)

/-- `fixStorageIssues` from `fixStorage.ts`: if some entry is corrupted,
back up the allowlisted entries (skipping falsy values), clear the whole
storage area and restore the backup; otherwise leave storage untouched.
Returns the new storage area and the boolean success flag (`true`: the
model's storage primitives do not throw). -/
def fixStorageIssues (st : Storage) : Storage × Bool :=
  let keys := st.map (fun kv => kv.1)
  let hasCorruptedData := keys.any (fun k =>
    match lsGet st k with
    | none => false
    | some v => valueIsCorrupted v)
  if hasCorruptedData then
    let importantKeys := keys.filter (isImportantKey st)
    let backup := importantKeys.filterMap (fun k =>
      match lsGet st k with
      | some v => if v = [] then none else some (k, v)
      | none => none)
    (backup.foldl (fun acc kv => lsSet acc kv.1 kv.2) [], true)
  else (st, true)

/-! ### The change log / shared-state bus (`useRealtimeUpdates.ts`) -/

/-- Entity kinds carried by a change event. -/
inductive EntityType where
  | student : EntityType
  | teacher : EntityType
  deriving DecidableEq

/-- Mutation kinds carried by a change event. -/
inductive ChangeAction where
  | create : ChangeAction
  | update : ChangeAction
  | delete : ChangeAction
  deriving DecidableEq

/-- The `Update` interface of `useRealtimeUpdates.ts` (a ChangeEvent). -/
structure Update where
  id : List Char
  type : EntityType
  action : ChangeAction
  timestamp : Nat
  userId : List Char
  data : JValue

/-- The in-memory state of the realtime bus: the retained change events
(the `updates` React state) together with the storage area. -/
structure RTState where
  updates : List Update
  storage : Storage

/-- The logical key of the change log. -/
def UPDATES_STORAGE_KEY : List Char := "updates".data

/-- The logical key of the shared snapshot. -/
def SHARED_DATA_KEY : List Char := "shared_data".data

/-- The shared owner namespace. -/
def sharedOwner : List Char := "shared".data

/-- The fallback shared snapshot `{ students: [], teachers: [] }`. -/
def defaultSharedData : JValue :=
  .obj [("students".data, .arr []), ("teachers".data, .arr [])]

/-- Property read `v[k]` on a JSON value: a present object field, or
`none` for a missing field / non-object base (JS `undefined`). -/
def objFind (fs : List (List Char × JValue)) (k : List Char) : Option JValue :=
  (fs.find? (fun kv => kv.1 == k)).map (fun kv => kv.2)

def jGetField (v : JValue) (k : List Char) : Option JValue :=
  match v with
  | .obj fs => objFind fs k
  | _ => none

/-- Property write `v[k] = x` on a JSON object: overwrite in place or append
(JS property insertion order).  On non-objects the write is dropped (the
reachable uses are on objects only; JS would ignore the write on a primitive
base and throw on `null`). -/
def jSetField (v : JValue) (k : List Char) (x : JValue) : JValue :=
  match v with
  | .obj fs =>
    if fs.any (fun kv => kv.1 == k) then
      .obj (fs.map (fun kv => if kv.1 == k then (k, x) else kv))
    else .obj (fs ++ [(k, x)])
  | other => other

/-- Object spread source `{...v}`: the own fields of an object, nothing for
primitives and `null`/`undefined` (string index properties are outside the
model). -/
def jObjFields : JValue → List (List Char × JValue)
  | .obj fs => fs
  | _ => []

/-- The object merge `{ ...s, ...data }`. -/
def jMerge (s data : JValue) : JValue :=
  (jObjFields s ++ jObjFields data).foldl (fun acc kv => jSetField acc kv.1 kv.2) (.obj [])

/-- The shared-snapshot mutation performed by `recordUpdate`: append /
merge-by-id / filter-by-id on the `students` or `teachers` array of the
snapshot.  `none` models the `TypeError` the source would throw when the
selected property is not an array (e.g. a snapshot that decoded to `null`):
in that case the snapshot write is skipped. -/
def applySharedMutation (type : EntityType) (action : ChangeAction) (data : JValue)
    (sharedData : JValue) : Option JValue :=
  let field := match type with
    | .student => "students".data
    | .teacher => "teachers".data
  match jGetField sharedData field with
  | some (.arr items) =>
    let items' := match action with
      | .create => items ++ [data]
      | .update => items.map (fun s =>
          if jeqbOpt (jGetField s "id".data) (jGetField data "id".data) then jMerge s data else s)
      | .delete => items.filter (fun s =>
          !(jeqbOpt (jGetField s "id".data) (jGetField data "id".data)))
    some (jSetField sharedData field (.arr items'))
  | _ => none

/-- `recordUpdate` from `useRealtimeUpdates.ts` for a signed-in user `user`
at wall-clock time `now`: append a fresh change event to the retained
updates, then read the shared snapshot (under the shared owner), apply the
mutation and persist the new snapshot.  (The React effect that also persists
the `updates` list under `'updates'` is not needed by any claim and is not
modelled; the event list of the model is the retained in-memory state.) -/
def recordUpdate (user : List Char) (now : Nat) (type : EntityType)
    (action : ChangeAction) (data : JValue) (s : RTState) : RTState :=
  let newUpdate : Update :=
    { id := "update_".data ++ natDigits now, type := type, action := action,
      timestamp := now, userId := user, data := data }
  let updates' := s.updates ++ [newUpdate]
  let read := getStorageItem SHARED_DATA_KEY sharedOwner defaultSharedData s.storage
  match applySharedMutation type action data read.1 with
  | some sharedData' =>
    { updates := updates',
      storage := setStorageItem SHARED_DATA_KEY sharedOwner sharedData' read.2 }
  | none => { updates := updates', storage := read.2 }

/-- `checkForUpdates` from `useRealtimeUpdates.ts`: is some retained change
event newer than `lastCheck`? -/
def checkForUpdates (lastCheck : Nat) (s : RTState) : Bool :=
  s.updates.any (fun u => decide (lastCheck < u.timestamp))

/-- `getSharedData` from `useRealtimeUpdates.ts`: read the shared snapshot
(with the empty-snapshot fallback), returning value and storage afterwards. -/
def getSharedData (s : RTState) : JValue × Storage :=
  getStorageItem SHARED_DATA_KEY sharedOwner defaultSharedData s.storage

/-! ### Domain repositories (`useStudentData.ts`, `useTeacherData.ts`) -/

/-- The model of a student record: the stable id, a representative
descriptive field and the weak teacher reference (the claims only concern
those). -/
structure StudentRec where
  id : List Char
  name : List Char
  teacherAssigned : Option (List Char)
  deriving DecidableEq

/-- The model of a teacher record (`Teacher` in `useTeacherData.ts`). -/
structure TeacherRec where
  id : List Char
  name : List Char
  deriving DecidableEq

/-- JSON form of a student, as `JSON.stringify` sees the JS object: a
`teacherAssigned: undefined` property is dropped. -/
def studentToJ (s : StudentRec) : JValue :=
  .obj ([("id".data, .str s.id), ("name".data, .str s.name)] ++
    (match s.teacherAssigned with
     | some t => [("teacherAssigned".data, .str t)]
     | none => []))

/-- JSON form of a student list. -/
def studentsToJ (l : List StudentRec) : JValue := .arr (l.map studentToJ)

/-- JSON form of a teacher. -/
def teacherToJ (t : TeacherRec) : JValue :=
  .obj [("id".data, .str t.id), ("name".data, .str t.name)]

/-- JSON form of a teacher list. -/
def teachersToJ (l : List TeacherRec) : JValue := .arr (l.map teacherToJ)

/-- The logical key of the per-user students collection. -/
def STUDENTS_STORAGE_KEY : List Char := "students".data

/-- The logical key of the per-user teachers collection. -/
def TEACHERS_STORAGE_KEY : List Char := "teachers".data

/-- The combined state of the student-data repository: its `students` and
`teachers` React state plus the realtime bus state. -/
structure AppState where
  students : List StudentRec
  teachers : List TeacherRec
  rt : RTState

/-- Clearing of one weak teacher reference, as done per student by the
cascade in `deleteTeacher`. -/
def clearTeacherRef (tid : List Char) (s : StudentRec) : StudentRec :=
  if s.teacherAssigned == some tid then
    { id := s.id, name := s.name, teacherAssigned := none }
  else s

/-- `deleteTeacher` from `useStudentData.ts` (the student-data repository),
signed in as `user`: filter the teacher out and persist the teachers; clear
the `teacherAssigned` reference on every student that pointed at the deleted
teacher; if that changed the students (compared, as in the source, on the
JSON texts) persist and adopt the new students.  (The module-level caches
and `forceRefresh` counter carry no claim-relevant state.) -/
def sd_deleteTeacher (user : List Char) (tid : List Char) (st : AppState) : AppState :=
  let updatedTeachers := st.teachers.filter (fun t => !(t.id == tid))
  let storage1 := setStorageItem TEACHERS_STORAGE_KEY user (teachersToJ updatedTeachers)
    st.rt.storage
  let updatedStudents := st.students.map (clearTeacherRef tid)
  if stringifyV (studentsToJ updatedStudents) = stringifyV (studentsToJ st.students) then
    { students := st.students, teachers := updatedTeachers,
      rt := { updates := st.rt.updates, storage := storage1 } }
  else
    { students := updatedStudents, teachers := updatedTeachers,
      rt := { updates := st.rt.updates,
              storage := setStorageItem STUDENTS_STORAGE_KEY user
                (studentsToJ updatedStudents) storage1 } }

/-- `deleteTeacher` from `useTeacherData.ts`, signed in as `user` at time
`now`: record a `teacher`/`delete` change event for the found teacher (which
also rewrites the `teachers` array of the shared snapshot) and drop the
teacher from the local list.  It does not touch any students. -/
def td_deleteTeacher (user : List Char) (now : Nat) (tid : List Char) (st : AppState) :
    AppState :=
  let rt' := match st.teachers.find? (fun t => t.id == tid) with
    | some t => recordUpdate user now .teacher .delete (teacherToJ t) st.rt
    | none => st.rt
  { students := st.students, teachers := st.teachers.filter (fun t => !(t.id == tid)),
    rt := rt' }

/-- A `Partial<StudentDetail>` restricted to the modelled fields: `some`
marks a property present in the partial update object. -/
structure StudentPatch where
  id : Option (List Char)
  name : Option (List Char)
  teacherAssigned : Option (Option (List Char))

/-- The merge `{ ...existing, ...updatedData, id }` of `updateStudent`: the
patch overrides fields it carries, and the `id` field is forced back to the
addressed id afterwards. -/
def applyPatch (s : StudentRec) (p : StudentPatch) (id : List Char) : StudentRec :=
  { id := id,
    name := p.name.getD s.name,
    teacherAssigned := p.teacherAssigned.getD s.teacherAssigned }

/-- `findIndex` plus `set` of `updateStudent`, on the first student with the
addressed id: returns the merged student and the updated list, or `none`
when no student matches. -/
def updateInList (id : List Char) (p : StudentPatch) :
    List StudentRec → Option (StudentRec × List StudentRec)
  | [] => none
  | s :: rest =>
    if s.id == id then some (applyPatch s p id, applyPatch s p id :: rest)
    else (updateInList id p rest).map (fun q => (q.1, s :: q.2))

/-- `updateStudent` from `useStudentData.ts`, signed in as `user` at time
`now`: if no student carries the addressed id, return `null` and change
nothing; otherwise merge the patch (forcing the id), adopt the new list and
record a `student`/`update` change event with the merged student. -/
def updateStudent (user : List Char) (now : Nat) (id : List Char) (updatedData : StudentPatch)
    (st : AppState) : Option StudentRec × AppState :=
  match updateInList id updatedData st.students with
  | none => (none, st)
  | some (updatedStudent, newStudents) =>
    (some updatedStudent,
      { students := newStudents, teachers := st.teachers,
        rt := recordUpdate user now .student .update (studentToJ updatedStudent) st.rt })

/-! ### Digit-level facts -/

/-- `restOk rest`: the continuation does not start with a decimal digit, so a
maximal digit run before it is read back unchanged. -/
def restOk : List Char → Prop
  | [] => True
  | c :: _ => isDigitC c = false

theorem char_toNat_ofNat (n : Nat) (h : n < 55296) : (Char.ofNat n).toNat = n := by
  have hv : n.isValidChar := Or.inl h
  simp [Char.ofNat, hv, Char.ofNatAux, Char.toNat, UInt32.toNat, BitVec.toNat_ofNatLt]

theorem char_ne_of_toNat_ne {a b : Char} (h : a.toNat ≠ b.toNat) : a ≠ b :=
  fun e => h (congrArg Char.toNat e)

theorem char_eq_of_toNat_eq {a b : Char} (h : a.toNat = b.toNat) : a = b := by
  have ha := Char.ofNat_toNat a
  have hb := Char.ofNat_toNat b
  rw [← ha, ← hb, h]

theorem digitChar_toNat {k : Nat} (h : k < 10) : (digitChar k).toNat = 48 + k :=
  char_toNat_ofNat (48 + k) (by omega)

theorem isDigitC_digitChar {k : Nat} (h : k < 10) : isDigitC (digitChar k) = true := by
  simp [isDigitC, digitChar_toNat h]
  omega

theorem digitVal_digitChar {k : Nat} (h : k < 10) : digitVal (digitChar k) = k := by
  simp [digitVal, digitChar_toNat h]

theorem natDigitsAux_ne_nil {fuel n : Nat} (h : n < fuel) : natDigitsAux fuel n ≠ [] := by
  cases fuel with
  | zero => omega
  | succ f =>
    rw [natDigitsAux]
    split
    · simp
    · simp

theorem natDigitsAux_digits {fuel : Nat} :
    ∀ {n : Nat}, n < fuel → ∀ c ∈ natDigitsAux fuel n, 48 ≤ c.toNat ∧ c.toNat ≤ 57 := by
  induction fuel with
  | zero => intro n h; omega
  | succ f ih =>
    intro n h c hc
    rw [natDigitsAux] at hc
    split at hc
    · rename_i h10
      simp at hc
      subst hc
      rw [digitChar_toNat h10]
      omega
    · rename_i h10
      rcases List.mem_append.mp hc with h1 | h2
      · exact ih (by omega) c h1
      · simp at h2
        subst h2
        rw [digitChar_toNat (Nat.mod_lt _ (by omega))]
        have := Nat.mod_lt n (y := 10) (by omega)
        omega

theorem natDigitsAux_head_ne_zero {fuel : Nat} :
    ∀ {n : Nat}, 1 ≤ n → n < fuel → ∀ c, (natDigitsAux fuel n).head? = some c → c ≠ '0' := by
  induction fuel with
  | zero => intro n h1 h2; omega
  | succ f ih =>
    intro n h1 h2 c hc
    rw [natDigitsAux] at hc
    split at hc
    · rename_i h10
      simp at hc
      subst hc
      apply char_ne_of_toNat_ne
      rw [digitChar_toNat h10]
      have : ('0').toNat = 48 := by decide
      omega
    · rename_i h10
      have hdivlt : n / 10 < f := by
        have := Nat.div_lt_self (show 0 < n by omega) (show 1 < 10 by omega)
        omega
      have hne := natDigitsAux_ne_nil hdivlt
      rcases hd : natDigitsAux f (n / 10) with _ | ⟨c0, cs⟩
      · exact absurd hd hne
      · rw [hd] at hc
        simp at hc
        subst hc
        have hdivpos : 1 ≤ n / 10 := Nat.one_le_div_iff (by omega) |>.mpr (by omega)
        exact ih hdivpos hdivlt c0 (by rw [hd]; rfl)

theorem parseDigitsAux_stop {acc : Nat} {rest : List Char} (h : restOk rest) :
    parseDigitsAux acc rest = (acc, rest) := by
  cases rest with
  | nil => rfl
  | cons c cs =>
    rw [parseDigitsAux]
    simp [restOk] at h
    simp [h]

theorem natDigitsAux_shift {fuel : Nat} :
    ∀ {n : Nat}, n < fuel → ∀ (acc : Nat) (rest : List Char),
      parseDigitsAux acc (natDigitsAux fuel n ++ rest) =
        parseDigitsAux (acc * 10 ^ (natDigitsAux fuel n).length + n) rest := by
  induction fuel with
  | zero => intro n h; omega
  | succ f ih =>
    intro n h acc rest
    rw [natDigitsAux]
    split
    · rename_i h10
      simp only [List.singleton_append, parseDigitsAux, isDigitC_digitChar h10, if_true,
        digitVal_digitChar h10, List.length_singleton]
      norm_num
    · rename_i h10
      have hdiv : n / 10 < f := by
        have := Nat.div_lt_self (n := n) (by omega) (show 1 < 10 by omega)
        omega
      have hm : n % 10 < 10 := Nat.mod_lt _ (by omega)
      rw [List.append_assoc, ih hdiv, List.singleton_append, parseDigitsAux,
        isDigitC_digitChar hm, if_pos rfl, digitVal_digitChar hm, List.length_append,
        List.length_singleton]
      congr 1
      have hnm := Nat.div_add_mod n 10
      set L := (natDigitsAux f (n / 10)).length
      ring_nf
      omega

theorem parseNat_natDigits (n : Nat) (rest : List Char) (h : restOk rest) :
    parseNat (natDigits n ++ rest) = some (n, rest) := by
  rcases Nat.eq_zero_or_pos n with rfl | hpos
  · have h0 : natDigits 0 = ['0'] := by decide
    rw [h0]
    cases rest with
    | nil => rfl
    | cons d ds =>
      simp [restOk] at h
      simp [parseNat, h]
  · have hlt : n < n + 1 := Nat.lt_succ_self n
    have hne := natDigitsAux_ne_nil hlt
    rcases hd : natDigitsAux (n + 1) n with _ | ⟨c, cs⟩
    · exact absurd hd hne
    · have hcdig : 48 ≤ c.toNat ∧ c.toNat ≤ 57 :=
        natDigitsAux_digits hlt c (by rw [hd]; exact List.mem_cons_self c cs)
      have hc0 : c ≠ '0' := natDigitsAux_head_ne_zero hpos hlt c (by rw [hd]; rfl)
      have hshift := natDigitsAux_shift hlt 0 rest
      rw [hd] at hshift
      rw [natDigits, hd, List.cons_append]
      rw [show ∀ x xs, parseNat (x :: xs) =
          (if x = '0' then
            match xs with
            | d :: _ => if isDigitC d then none else some (0, xs)
            | [] => some (0, [])
          else if isDigitC x then some (parseDigitsAux 0 (x :: xs))
          else none) from fun x xs => rfl]
      rw [if_neg hc0, if_pos (show isDigitC c = true by simp [isDigitC]; omega)]
      rw [List.cons_append] at hshift
      rw [hshift, Nat.zero_mul, Nat.zero_add, parseDigitsAux_stop h]

/-! ### String escaping inverts -/

theorem hexVal_hexDigitChar {x : Nat} (h : x < 16) : hexVal (hexDigitChar x) = some x := by
  by_cases h10 : x < 10
  · rw [hexDigitChar, if_pos h10, hexVal, if_pos (by rw [digitChar_toNat h10]; omega)]
    rw [digitChar_toNat h10]
    congr 1
    omega
  · have ht : (Char.ofNat (97 + x - 10)).toNat = 87 + x := by
      rw [show 97 + x - 10 = 87 + x by omega]
      exact char_toNat_ofNat _ (by omega)
    rw [hexDigitChar, if_neg h10, hexVal, if_neg (by rw [ht]; omega),
      if_pos (by rw [ht]; omega), ht]
    congr 1
    omega

theorem parseStrAux_escape (s : List Char) :
    ∀ rest, parseStrAux (escapeStr s ++ '"' :: rest) = some (s, rest) := by
  induction s with
  | nil =>
    intro rest
    rw [escapeStr, List.nil_append, parseStrAux.eq_def]
    simp
  | cons c cs ih =>
    intro rest
    rw [escapeStr, List.append_assoc]
    by_cases h1 : c = '"'
    · subst h1
      rw [show escChar '"' = ['\\', '"'] from rfl]
      simp only [List.cons_append, List.nil_append]
      rw [parseStrAux.eq_def]
      simp [ih]
    · by_cases h2 : c = '\\'
      · subst h2
        rw [show escChar '\\' = ['\\', '\\'] from rfl]
        simp only [List.cons_append, List.nil_append]
        rw [parseStrAux.eq_def]
        simp [ih]
      · by_cases h3 : c.toNat = 8
        · have hc : Char.ofNat 8 = c := char_eq_of_toNat_eq (by rw [char_toNat_ofNat 8 (by omega), h3])
          rw [escChar, if_neg h1, if_neg h2, if_pos h3]
          simp only [List.cons_append, List.nil_append]
          rw [parseStrAux.eq_def]
          simp [ih]
          exact hc
        · by_cases h4 : c.toNat = 9
          · have hc : Char.ofNat 9 = c := char_eq_of_toNat_eq (by rw [char_toNat_ofNat 9 (by omega), h4])
            rw [escChar, if_neg h1, if_neg h2, if_neg h3, if_pos h4]
            simp only [List.cons_append, List.nil_append]
            rw [parseStrAux.eq_def]
            simp [ih]
            exact hc
          · by_cases h5 : c.toNat = 10
            · have hc : Char.ofNat 10 = c := char_eq_of_toNat_eq (by rw [char_toNat_ofNat 10 (by omega), h5])
              rw [escChar, if_neg h1, if_neg h2, if_neg h3, if_neg h4, if_pos h5]
              simp only [List.cons_append, List.nil_append]
              rw [parseStrAux.eq_def]
              simp [ih]
              exact hc
            · by_cases h6 : c.toNat = 12
              · have hc : Char.ofNat 12 = c := char_eq_of_toNat_eq (by rw [char_toNat_ofNat 12 (by omega), h6])
                rw [escChar, if_neg h1, if_neg h2, if_neg h3, if_neg h4, if_neg h5, if_pos h6]
                simp only [List.cons_append, List.nil_append]
                rw [parseStrAux.eq_def]
                simp [ih]
                exact hc
              · by_cases h7 : c.toNat = 13
                · have hc : Char.ofNat 13 = c := char_eq_of_toNat_eq (by rw [char_toNat_ofNat 13 (by omega), h7])
                  rw [escChar, if_neg h1, if_neg h2, if_neg h3, if_neg h4, if_neg h5, if_neg h6, if_pos h7]
                  simp only [List.cons_append, List.nil_append]
                  rw [parseStrAux.eq_def]
                  simp [ih]
                  exact hc
                · by_cases h8 : c.toNat < 32
                  · rw [escChar, if_neg h1, if_neg h2, if_neg h3, if_neg h4, if_neg h5, if_neg h6,
                      if_neg h7, if_pos h8]
                    simp only [List.cons_append, List.nil_append]
                    rw [parseStrAux.eq_def]
                    have hd : c.toNat / 16 < 16 := by omega
                    have hm : c.toNat % 16 < 16 := Nat.mod_lt _ (by omega)
                    have hc : Char.ofNat (c.toNat / 16 * 16 + c.toNat % 16) = c := by
                      rw [show c.toNat / 16 * 16 + c.toNat % 16 = c.toNat by omega]
                      exact Char.ofNat_toNat c
                    have h0 : hexVal '0' = some 0 := by decide
                    simp [h0, hexVal_hexDigitChar hd, hexVal_hexDigitChar hm, ih]
                    exact hc
                  · rw [escChar, if_neg h1, if_neg h2, if_neg h3, if_neg h4, if_neg h5, if_neg h6,
                      if_neg h7, if_neg h8]
                    simp only [List.cons_append, List.nil_append]
                    rw [parseStrAux.eq_def]
                    simp [h1, h2, h8, ih]

/-! ### Induction over JSON values -/

theorem JValue.myInduction (P : JValue → Prop)
    (hnull : P .null) (hbool : ∀ b, P (.bool b)) (hnum : ∀ i, P (.num i))
    (hstr : ∀ s, P (.str s))
    (harr : ∀ vs, (∀ v ∈ vs, P v) → P (.arr vs))
    (hobj : ∀ fs, (∀ kv ∈ fs, P kv.2) → P (.obj fs)) : ∀ v, P v := by
  have key : ∀ (n : Nat) (v : JValue), sizeOf v ≤ n → P v := by
    intro n
    induction n with
    | zero =>
      intro v hv
      cases v <;> simp at hv
    | succ n ih =>
      intro v hv
      match v with
      | .null => exact hnull
      | .bool b => exact hbool b
      | .num i => exact hnum i
      | .str s => exact hstr s
      | .arr vs =>
        refine harr vs (fun w hw => ih w ?_)
        have hlt := List.sizeOf_lt_of_mem hw
        have : sizeOf (JValue.arr vs) = 1 + sizeOf vs := by simp
        omega
      | .obj fs =>
        refine hobj fs (fun kv hkv => ih kv.2 ?_)
        have hlt := List.sizeOf_lt_of_mem hkv
        have h2 : sizeOf kv = 1 + sizeOf kv.1 + sizeOf kv.2 := by
          rcases kv with ⟨a, b⟩
          simp
        have : sizeOf (JValue.obj fs) = 1 + sizeOf fs := by simp
        omega
  exact fun v => key (sizeOf v) v (Nat.le_refl _)

/-! ### Shape facts about the canonical JSON text -/

theorem stringify_head (v : JValue) :
    ∃ c cs, stringifyV v = c :: cs ∧
      (c = 'n' ∨ c = 't' ∨ c = 'f' ∨ c = '"' ∨ c = '[' ∨ c = '\x7b' ∨ c = '-' ∨
        (48 ≤ c.toNat ∧ c.toNat ≤ 57)) := by
  cases v with
  | null => exact ⟨'n', _, rfl, by simp⟩
  | bool b =>
    cases b with
    | true => exact ⟨'t', _, rfl, by simp⟩
    | false => exact ⟨'f', _, rfl, by simp⟩
  | num i =>
    by_cases hi : i < 0
    · refine ⟨'-', natDigits i.natAbs, ?_, by simp⟩
      rw [stringifyV, intChars, if_pos hi]
    · have hlt : i.toNat < i.toNat + 1 := Nat.lt_succ_self _
      have hne := natDigitsAux_ne_nil hlt
      rcases hd : natDigitsAux (i.toNat + 1) i.toNat with _ | ⟨c, cs⟩
      · exact absurd hd hne
      · refine ⟨c, cs, ?_, Or.inr (Or.inr (Or.inr (Or.inr (Or.inr (Or.inr (Or.inr ?_))))))⟩
        · rw [stringifyV, intChars, if_neg hi, natDigits, hd]
        · exact natDigitsAux_digits hlt c (by rw [hd]; exact List.mem_cons_self c cs)
  | str s => exact ⟨'"', _, rfl, by simp⟩
  | arr vs =>
    cases vs with
    | nil => exact ⟨'[', _, rfl, by simp⟩
    | cons v vs => exact ⟨'[', _, rfl, by simp⟩
  | obj fs =>
    cases fs with
    | nil => exact ⟨'\x7b', _, rfl, by simp⟩
    | cons kv fs => exact ⟨'\x7b', _, rfl, by simp⟩

theorem stringify_ne_nil (v : JValue) : stringifyV v ≠ [] := by
  obtain ⟨c, cs, he, _⟩ := stringify_head v
  rw [he]
  simp

theorem stringifyItems_head {vs : List JValue} (h : vs ≠ []) :
    ∃ c cs, stringifyItems vs = c :: cs ∧
      (c = 'n' ∨ c = 't' ∨ c = 'f' ∨ c = '"' ∨ c = '[' ∨ c = '\x7b' ∨ c = '-' ∨
        (48 ≤ c.toNat ∧ c.toNat ≤ 57)) := by
  cases vs with
  | nil => exact absurd rfl h
  | cons v vs =>
    obtain ⟨c, cs, he, hc⟩ := stringify_head v
    cases vs with
    | nil => exact ⟨c, cs, by rw [stringifyItems, he], hc⟩
    | cons w ws =>
      refine ⟨c, cs ++ ',' :: stringifyItems (w :: ws), ?_, hc⟩
      have hu : stringifyItems (v :: w :: ws) = stringifyV v ++ ',' :: stringifyItems (w :: ws) := rfl
      rw [hu, he]
      simp

theorem stringifyFields_head (k : List Char) (v : JValue) (fs : List (List Char × JValue)) :
    ∃ cs, stringifyFields ((k, v) :: fs) = '"' :: cs := by
  cases fs with
  | nil => exact ⟨_, rfl⟩
  | cons kv fs => exact ⟨_, rfl⟩

theorem jfuel_pos (v : JValue) : 1 ≤ jfuel v := by
  cases v with
  | arr vs => show 1 ≤ 1 + itemsFuel vs; omega
  | obj fs => show 1 ≤ 1 + fieldsFuel fs; omega
  | null => exact Nat.le_refl 1
  | bool b => cases b <;> exact Nat.le_refl 1
  | num i => exact Nat.le_refl 1
  | str s => exact Nat.le_refl 1

theorem itemsFuel_pos (vs : List JValue) : 1 ≤ itemsFuel vs := by
  cases vs with
  | nil => exact Nat.le_refl 1
  | cons v vs => show 1 ≤ 1 + max (jfuel v) (itemsFuel vs); omega

theorem fieldsFuel_pos (fs : List (List Char × JValue)) : 1 ≤ fieldsFuel fs := by
  cases fs with
  | nil => exact Nat.le_refl 1
  | cons kv fs =>
    rcases kv with ⟨k, v⟩
    show 1 ≤ 1 + max (jfuel v) (fieldsFuel fs)
    omega

theorem itemsFuel_le (vs : List JValue)
    (H : ∀ v ∈ vs, jfuel v ≤ (stringifyV v).length) :
    itemsFuel vs ≤ (stringifyItems vs).length + 1 := by
  induction vs with
  | nil => decide
  | cons v vs ih =>
    have hv := H v (List.mem_cons_self v vs)
    have hv1 : 1 ≤ (stringifyV v).length := by
      obtain ⟨c, cs, he, _⟩ := stringify_head v
      rw [he]
      simp
    cases vs with
    | nil =>
      have hu : stringifyItems [v] = stringifyV v := rfl
      have hf : itemsFuel [v] = 1 + max (jfuel v) (itemsFuel []) := rfl
      have hf0 : itemsFuel ([] : List JValue) = 1 := rfl
      rw [hu, hf, hf0]
      omega
    | cons w ws =>
      have hu : stringifyItems (v :: w :: ws) = stringifyV v ++ ',' :: stringifyItems (w :: ws) := rfl
      have hf : itemsFuel (v :: w :: ws) = 1 + max (jfuel v) (itemsFuel (w :: ws)) := rfl
      have ihs := ih (fun u hu => H u (List.mem_cons_of_mem v hu))
      rw [hu, hf]
      simp only [List.length_append, List.length_cons]
      omega

theorem fieldsFuel_le (fs : List (List Char × JValue))
    (H : ∀ kv ∈ fs, jfuel kv.2 ≤ (stringifyV kv.2).length) :
    fieldsFuel fs ≤ (stringifyFields fs).length + 1 := by
  induction fs with
  | nil => decide
  | cons kv fs ih =>
    rcases kv with ⟨k, v⟩
    have hv : jfuel v ≤ (stringifyV v).length := H (k, v) (List.mem_cons_self _ fs)
    have hv1 : 1 ≤ (stringifyV v).length := by
      obtain ⟨c, cs, he, _⟩ := stringify_head v
      rw [he]
      simp
    cases fs with
    | nil =>
      have hu : stringifyFields [(k, v)] = '"' :: escapeStr k ++ '"' :: ':' :: stringifyV v := rfl
      have hf : fieldsFuel [(k, v)] = 1 + max (jfuel v) (fieldsFuel []) := rfl
      have hf0 : fieldsFuel ([] : List (List Char × JValue)) = 1 := rfl
      rw [hu, hf, hf0]
      simp only [List.length_append, List.length_cons]
      omega
    | cons kw fs' =>
      have hu : stringifyFields ((k, v) :: kw :: fs') =
          '"' :: escapeStr k ++ '"' :: ':' :: stringifyV v ++ ',' :: stringifyFields (kw :: fs') := rfl
      have hf : fieldsFuel ((k, v) :: kw :: fs') = 1 + max (jfuel v) (fieldsFuel (kw :: fs')) := rfl
      have ihs := ih (fun u hu => H u (List.mem_cons_of_mem _ hu))
      rw [hu, hf]
      simp only [List.length_append, List.length_cons]
      omega

theorem jfuel_le : ∀ v : JValue, jfuel v ≤ (stringifyV v).length := by
  refine JValue.myInduction _ (by decide) (fun b => by cases b <;> decide) ?_ ?_ ?_ ?_
  · intro i
    obtain ⟨c, cs, he, _⟩ := stringify_head (.num i)
    have : jfuel (JValue.num i) = 1 := rfl
    rw [this, he]
    simp
  · intro s
    have : jfuel (JValue.str s) = 1 := rfl
    rw [this, stringifyV]
    simp
  · intro vs H
    cases vs with
    | nil => decide
    | cons v vs =>
      have hf : jfuel (JValue.arr (v :: vs)) = 1 + itemsFuel (v :: vs) := rfl
      have hu : stringifyV (JValue.arr (v :: vs)) = '[' :: stringifyItems (v :: vs) ++ [']'] := rfl
      have := itemsFuel_le (v :: vs) H
      rw [hf, hu]
      simp only [List.length_append, List.length_cons]
      omega
  · intro fs H
    cases fs with
    | nil => decide
    | cons kv fs =>
      have hf : jfuel (JValue.obj (kv :: fs)) = 1 + fieldsFuel (kv :: fs) := rfl
      have hu : stringifyV (JValue.obj (kv :: fs)) = '\x7b' :: stringifyFields (kv :: fs) ++ ['\x7d'] := rfl
      have := fieldsFuel_le (kv :: fs) H
      rw [hf, hu]
      simp only [List.length_append, List.length_cons]
      omega

/-! ### The canonical JSON text never contains the sentinel byte -/

theorem sentinel_toNat : sentinel.toNat = 0 := by decide

theorem hexDigitChar_toNat_ge {x : Nat} (h : x < 16) : 48 ≤ (hexDigitChar x).toNat := by
  by_cases h10 : x < 10
  · rw [hexDigitChar, if_pos h10, digitChar_toNat h10]
    omega
  · rw [hexDigitChar, if_neg h10,
      show 97 + x - 10 = 87 + x by omega, char_toNat_ofNat _ (by omega)]
    omega

theorem escChar_ne_sentinel (c : Char) : ∀ x ∈ escChar c, x ≠ sentinel := by
  intro x hx
  rw [escChar] at hx
  split_ifs at hx with h1 h2 h3 h4 h5 h6 h7 h8
  · fin_cases hx <;> decide
  · fin_cases hx <;> decide
  · fin_cases hx <;> decide
  · fin_cases hx <;> decide
  · fin_cases hx <;> decide
  · fin_cases hx <;> decide
  · fin_cases hx <;> decide
  · fin_cases hx
    · decide
    · decide
    · decide
    · decide
    · apply char_ne_of_toNat_ne
      have hge : 48 ≤ (hexDigitChar (c.toNat / 16)).toNat :=
        hexDigitChar_toNat_ge (by omega)
      rw [sentinel_toNat]
      omega
    · apply char_ne_of_toNat_ne
      have hge : 48 ≤ (hexDigitChar (c.toNat % 16)).toNat :=
        hexDigitChar_toNat_ge (Nat.mod_lt _ (by omega))
      rw [sentinel_toNat]
      omega
  · rcases List.mem_singleton.mp hx with rfl
    exact char_ne_of_toNat_ne (by rw [sentinel_toNat]; omega)

theorem escapeStr_ne_sentinel (s : List Char) : ∀ x ∈ escapeStr s, x ≠ sentinel := by
  induction s with
  | nil => intro x hx; simp [escapeStr] at hx
  | cons c cs ih =>
    intro x hx
    rw [escapeStr] at hx
    rcases List.mem_append.mp hx with h | h
    · exact escChar_ne_sentinel c x h
    · exact ih x h

theorem natDigits_ne_sentinel {fuel n : Nat} (h : n < fuel) :
    ∀ x ∈ natDigitsAux fuel n, x ≠ sentinel := by
  intro x hx
  have := natDigitsAux_digits h x hx
  exact char_ne_of_toNat_ne (by rw [sentinel_toNat]; omega)

theorem itemsNoSentinel (vs : List JValue)
    (H : ∀ v ∈ vs, sentinel ∉ stringifyV v) : sentinel ∉ stringifyItems vs := by
  induction vs with
  | nil => simp [stringifyItems]
  | cons v vs ih =>
    have hv : sentinel ∉ stringifyV v := H v (List.mem_cons_self v vs)
    have ihs := ih (fun u hu' => H u (List.mem_cons_of_mem v hu'))
    cases vs with
    | nil =>
      have hu : stringifyItems [v] = stringifyV v := rfl
      rw [hu]
      exact hv
    | cons w ws =>
      have hu : stringifyItems (v :: w :: ws) = stringifyV v ++ ',' :: stringifyItems (w :: ws) := rfl
      rw [hu]
      intro hmem
      simp only [List.mem_append, List.mem_cons] at hmem
      rcases hmem with h | h | h
      · exact hv h
      · exact absurd h (by decide)
      · exact ihs h

theorem fieldsNoSentinel (fs : List (List Char × JValue))
    (H : ∀ kv ∈ fs, sentinel ∉ stringifyV kv.2) : sentinel ∉ stringifyFields fs := by
  induction fs with
  | nil => simp [stringifyFields]
  | cons kv fs ih =>
    rcases kv with ⟨k, v⟩
    have hv : sentinel ∉ stringifyV v := H (k, v) (List.mem_cons_self _ fs)
    have hesc := escapeStr_ne_sentinel k
    have ihs := ih (fun u hu' => H u (List.mem_cons_of_mem _ hu'))
    cases fs with
    | nil =>
      have hu : stringifyFields [(k, v)] = '"' :: escapeStr k ++ '"' :: ':' :: stringifyV v := rfl
      rw [hu]
      intro hmem
      simp only [List.mem_append, List.mem_cons] at hmem
      rcases hmem with (h | h) | (h | h | h)
      · exact absurd h (by decide)
      · exact hesc sentinel h rfl
      · exact absurd h (by decide)
      · exact absurd h (by decide)
      · exact hv h
    | cons kw fs' =>
      have hu : stringifyFields ((k, v) :: kw :: fs') =
          '"' :: escapeStr k ++ '"' :: ':' :: stringifyV v ++ ',' :: stringifyFields (kw :: fs') := rfl
      rw [hu]
      intro hmem
      simp only [List.mem_append, List.mem_cons] at hmem
      rcases hmem with ((h | h) | (h | h | h)) | (h | h)
      · exact absurd h (by decide)
      · exact hesc sentinel h rfl
      · exact absurd h (by decide)
      · exact absurd h (by decide)
      · exact hv h
      · exact absurd h (by decide)
      · exact ihs h

theorem stringify_sentinel_free : ∀ v : JValue, sentinel ∉ stringifyV v := by
  refine JValue.myInduction _ (by decide) (fun b => by cases b <;> decide) ?_ ?_ ?_ ?_
  · intro i
    rw [stringifyV, intChars]
    split_ifs with hi
    · intro hmem
      rcases List.mem_cons.mp hmem with h0 | h
      · exact absurd h0 (by decide)
      · exact natDigits_ne_sentinel (Nat.lt_succ_self _) sentinel h rfl
    · intro hmem
      exact natDigits_ne_sentinel (Nat.lt_succ_self _) sentinel hmem rfl
  · intro s
    rw [stringifyV]
    intro hmem
    rcases List.mem_cons.mp hmem with h0 | h
    · exact absurd h0 (by decide)
    · rcases List.mem_append.mp h with h' | h'
      · exact escapeStr_ne_sentinel s sentinel h' rfl
      · rcases List.mem_cons.mp h' with h0 | h''
        · exact absurd h0 (by decide)
        · simp at h''
  · intro vs H
    rw [stringifyV]
    intro hmem
    rcases List.mem_cons.mp hmem with h0 | h
    · exact absurd h0 (by decide)
    · rcases List.mem_append.mp h with h' | h'
      · exact itemsNoSentinel vs H h'
      · rcases List.mem_cons.mp h' with h0 | h''
        · exact absurd h0 (by decide)
        · simp at h''
  · intro fs H
    rw [stringifyV]
    intro hmem
    rcases List.mem_cons.mp hmem with h0 | h
    · exact absurd h0 (by decide)
    · rcases List.mem_append.mp h with h' | h'
      · exact fieldsNoSentinel fs H h'
      · rcases List.mem_cons.mp h' with h0 | h''
        · exact absurd h0 (by decide)
        · simp at h''

/-! ### The reader inverts the serializer -/

theorem parseVal_null_red (f : Nat) (rest : List Char) :
    parseVal (f + 1) ('n' :: 'u' :: 'l' :: 'l' :: rest) = some (.null, rest) := by
  rw [parseVal.eq_def]
  simp

theorem parseVal_true_red (f : Nat) (rest : List Char) :
    parseVal (f + 1) ('t' :: 'r' :: 'u' :: 'e' :: rest) = some (.bool true, rest) := by
  rw [parseVal.eq_def]
  simp

theorem parseVal_false_red (f : Nat) (rest : List Char) :
    parseVal (f + 1) ('f' :: 'a' :: 'l' :: 's' :: 'e' :: rest) = some (.bool false, rest) := by
  rw [parseVal.eq_def]
  simp

theorem parseVal_str_red (f : Nat) (cs : List Char) :
    parseVal (f + 1) ('"' :: cs) = (parseStrAux cs).map (fun p => (.str p.1, p.2)) := by
  rw [parseVal.eq_def]
  simp

theorem parseVal_arrnil_red (f : Nat) (rest : List Char) :
    parseVal (f + 1) ('[' :: ']' :: rest) = some (.arr [], rest) := by
  rw [parseVal.eq_def]
  simp

theorem parseVal_arrcons_red (f : Nat) (d : Char) (cs2 : List Char) (h : ¬ d = ']') :
    parseVal (f + 1) ('[' :: d :: cs2) =
      (parseItems f (d :: cs2)).map (fun p => (.arr p.1, p.2)) := by
  rw [parseVal.eq_def]
  simp [h]

theorem parseVal_objnil_red (f : Nat) (rest : List Char) :
    parseVal (f + 1) ('\x7b' :: '\x7d' :: rest) = some (.obj [], rest) := by
  rw [parseVal.eq_def]
  simp

theorem parseVal_objcons_red (f : Nat) (d : Char) (cs2 : List Char) (h : ¬ d = '\x7d') :
    parseVal (f + 1) ('\x7b' :: d :: cs2) =
      (parseFields f (d :: cs2)).map (fun p => (.obj p.1, p.2)) := by
  rw [parseVal.eq_def]
  simp [h]

theorem parseVal_neg_red (f : Nat) (cs : List Char) :
    parseVal (f + 1) ('-' :: cs) = (parseNat cs).map (fun p => (.num (-(p.1 : Int)), p.2)) := by
  rw [parseVal.eq_def]
  simp

theorem parseVal_digit_red (f : Nat) (c : Char) (cs : List Char)
    (h1 : 48 ≤ c.toNat) (h2 : c.toNat ≤ 57) :
    parseVal (f + 1) (c :: cs) = (parseNat (c :: cs)).map (fun p => (.num (p.1 : Int), p.2)) := by
  have hn : ¬ c = 'n' := fun e => by rw [e] at h1 h2; simp at h1 h2
  have ht : ¬ c = 't' := fun e => by rw [e] at h1 h2; simp at h1 h2
  have hf : ¬ c = 'f' := fun e => by rw [e] at h1 h2; simp at h1 h2
  have hq : ¬ c = '"' := fun e => by rw [e] at h1 h2; simp at h1 h2
  have hbr : ¬ c = '[' := fun e => by rw [e] at h1 h2; simp at h1 h2
  have hbc : ¬ c = '\x7b' := fun e => by rw [e] at h1 h2; simp at h1 h2
  have hm : ¬ c = '-' := fun e => by rw [e] at h1 h2; simp at h1 h2
  have hd : isDigitC c = true := by simp [isDigitC]; omega
  rw [parseVal.eq_def]
  simp [hn, ht, hf, hq, hbr, hbc, hm, hd]

theorem parseItems_cons_red (f : Nat) (cs : List Char) (v : JValue) (r2 : List Char)
    (h : parseVal f cs = some (v, ',' :: r2)) :
    parseItems (f + 1) cs = (parseItems f r2).map (fun p => (v :: p.1, p.2)) := by
  rw [parseItems.eq_def]
  simp [h]

theorem parseItems_last_red (f : Nat) (cs : List Char) (v : JValue) (r2 : List Char)
    (h : parseVal f cs = some (v, ']' :: r2)) :
    parseItems (f + 1) cs = some ([v], r2) := by
  rw [parseItems.eq_def]
  simp [h]

theorem parseFields_cons_red (f : Nat) (cs1 k r2 : List Char) (v : JValue) (r4 : List Char)
    (hs : parseStrAux cs1 = some (k, ':' :: r2))
    (hv : parseVal f r2 = some (v, ',' :: r4)) :
    parseFields (f + 1) ('"' :: cs1) = (parseFields f r4).map (fun p => ((k, v) :: p.1, p.2)) := by
  rw [parseFields.eq_def]
  simp [hs, hv]

theorem parseFields_last_red (f : Nat) (cs1 k r2 : List Char) (v : JValue) (r4 : List Char)
    (hs : parseStrAux cs1 = some (k, ':' :: r2))
    (hv : parseVal f r2 = some (v, '\x7d' :: r4)) :
    parseFields (f + 1) ('"' :: cs1) = some ([(k, v)], r4) := by
  rw [parseFields.eq_def]
  simp [hs, hv]

theorem headShape_ne {c : Char}
    (h : c = 'n' ∨ c = 't' ∨ c = 'f' ∨ c = '"' ∨ c = '[' ∨ c = '\x7b' ∨ c = '-' ∨
      (48 ≤ c.toNat ∧ c.toNat ≤ 57)) : ¬ c = ']' ∧ ¬ c = '\x7d' := by
  rcases h with rfl | rfl | rfl | rfl | rfl | rfl | rfl | ⟨h1, h2⟩
  · exact ⟨by decide, by decide⟩
  · exact ⟨by decide, by decide⟩
  · exact ⟨by decide, by decide⟩
  · exact ⟨by decide, by decide⟩
  · exact ⟨by decide, by decide⟩
  · exact ⟨by decide, by decide⟩
  · exact ⟨by decide, by decide⟩
  · constructor
    · intro e
      rw [e] at h1 h2
      simp at h1 h2
    · intro e
      rw [e] at h1 h2
      simp at h1 h2

theorem restOk_rbrack (r : List Char) : restOk (']' :: r) := by
  show isDigitC ']' = false
  decide

theorem restOk_rbrace (r : List Char) : restOk ('\x7d' :: r) := by
  show isDigitC '\x7d' = false
  decide

theorem restOk_comma (r : List Char) : restOk (',' :: r) := by
  show isDigitC ',' = false
  decide

theorem parse_stringify : ∀ fuel : Nat,
    (∀ (v : JValue) (rest : List Char), jfuel v ≤ fuel → restOk rest →
      parseVal fuel (stringifyV v ++ rest) = some (v, rest)) ∧
    (∀ (vs : List JValue) (rest : List Char), vs ≠ [] → itemsFuel vs ≤ fuel →
      parseItems fuel (stringifyItems vs ++ ']' :: rest) = some (vs, rest)) ∧
    (∀ (fs : List (List Char × JValue)) (rest : List Char), fs ≠ [] → fieldsFuel fs ≤ fuel →
      parseFields fuel (stringifyFields fs ++ '\x7d' :: rest) = some (fs, rest)) := by
  intro fuel
  induction fuel with
  | zero =>
    refine ⟨fun v rest hf _ => ?_, fun vs rest hne hf => ?_, fun fs rest hne hf => ?_⟩
    · have := jfuel_pos v
      omega
    · have := itemsFuel_pos vs
      omega
    · have := fieldsFuel_pos fs
      omega
  | succ f ih =>
    obtain ⟨ih1, ih2, ih3⟩ := ih
    refine ⟨?_, ?_, ?_⟩
    · intro v rest hfv hro
      cases v with
      | null =>
        have he : stringifyV .null ++ rest = 'n' :: 'u' :: 'l' :: 'l' :: rest := rfl
        rw [he, parseVal_null_red]
      | bool b =>
        cases b with
        | true =>
          have he : stringifyV (.bool true) ++ rest = 't' :: 'r' :: 'u' :: 'e' :: rest := rfl
          rw [he, parseVal_true_red]
        | false =>
          have he : stringifyV (.bool false) ++ rest = 'f' :: 'a' :: 'l' :: 's' :: 'e' :: rest := rfl
          rw [he, parseVal_false_red]
      | num i =>
        by_cases hi : i < 0
        · have he : stringifyV (.num i) = '-' :: natDigits i.natAbs := by
            rw [stringifyV, intChars, if_pos hi]
          rw [he, List.cons_append, parseVal_neg_red, parseNat_natDigits _ _ hro]
          show some (JValue.num (-((i.natAbs : Int))), rest) = some (JValue.num i, rest)
          rw [show -((i.natAbs : Int)) = i by omega]
        · have he : stringifyV (.num i) = natDigits i.toNat := by
            rw [stringifyV, intChars, if_neg hi]
          have hlt : i.toNat < i.toNat + 1 := Nat.lt_succ_self _
          have hne := natDigitsAux_ne_nil hlt
          rcases hd : natDigitsAux (i.toNat + 1) i.toNat with _ | ⟨c, cs⟩
          · exact absurd hd hne
          · have hcdig : 48 ≤ c.toNat ∧ c.toNat ≤ 57 :=
              natDigitsAux_digits hlt c (by rw [hd]; exact List.mem_cons_self c cs)
            have hnn : natDigits i.toNat = c :: cs := by rw [natDigits, hd]
            rw [he, hnn, List.cons_append, parseVal_digit_red f c _ hcdig.1 hcdig.2,
              ← List.cons_append, ← hnn, parseNat_natDigits _ _ hro]
            show some (JValue.num ((i.toNat : Int)), rest) = some (JValue.num i, rest)
            rw [show ((i.toNat : Int)) = i by omega]
      | str s =>
        have he : stringifyV (.str s) ++ rest = '"' :: (escapeStr s ++ '"' :: rest) := by
          have h0 : stringifyV (.str s) = '"' :: escapeStr s ++ ['"'] := rfl
          rw [h0]
          simp
        rw [he, parseVal_str_red, parseStrAux_escape]
        rfl
      | arr vs =>
        cases vs with
        | nil =>
          have he : stringifyV (.arr []) ++ rest = '[' :: ']' :: rest := rfl
          rw [he, parseVal_arrnil_red]
        | cons v vs' =>
          have hif : itemsFuel (v :: vs') ≤ f := by
            have hdef : jfuel (.arr (v :: vs')) = 1 + itemsFuel (v :: vs') := rfl
            omega
          obtain ⟨d, ds, hd, hshape⟩ :=
            stringifyItems_head (show v :: vs' ≠ [] by simp)
          have hdne := (headShape_ne hshape).1
          have he : stringifyV (.arr (v :: vs')) ++ rest =
              '[' :: (stringifyItems (v :: vs') ++ ']' :: rest) := by
            have h0 : stringifyV (.arr (v :: vs')) = '[' :: stringifyItems (v :: vs') ++ [']'] := rfl
            rw [h0]
            simp
          rw [he, hd, List.cons_append, parseVal_arrcons_red f d _ hdne, ← List.cons_append, ← hd,
            ih2 (v :: vs') rest (by simp) hif]
          rfl
      | obj fs =>
        cases fs with
        | nil =>
          have he : stringifyV (.obj []) ++ rest = '\x7b' :: '\x7d' :: rest := rfl
          rw [he, parseVal_objnil_red]
        | cons kv fs' =>
          rcases kv with ⟨k, v⟩
          have hif : fieldsFuel ((k, v) :: fs') ≤ f := by
            have hdef : jfuel (.obj ((k, v) :: fs')) = 1 + fieldsFuel ((k, v) :: fs') := rfl
            omega
          obtain ⟨cs0, hd⟩ := stringifyFields_head k v fs'
          have hdne : ¬ ('"' : Char) = '\x7d' := by decide
          have he : stringifyV (.obj ((k, v) :: fs')) ++ rest =
              '\x7b' :: (stringifyFields ((k, v) :: fs') ++ '\x7d' :: rest) := by
            have h0 : stringifyV (.obj ((k, v) :: fs')) =
              '\x7b' :: stringifyFields ((k, v) :: fs') ++ ['\x7d'] := rfl
            rw [h0]
            simp
          rw [he, hd, List.cons_append, parseVal_objcons_red f '"' _ hdne, ← List.cons_append, ← hd,
            ih3 ((k, v) :: fs') rest (by simp) hif]
          rfl
    · intro vs rest hne hfe
      cases vs with
      | nil => exact absurd rfl hne
      | cons v vs' =>
        have hfv : jfuel v ≤ f := by
          have hdef : itemsFuel (v :: vs') = 1 + max (jfuel v) (itemsFuel vs') := rfl
          omega
        cases vs' with
        | nil =>
          have he : stringifyItems [v] ++ ']' :: rest = stringifyV v ++ ']' :: rest := rfl
          have h1 := ih1 v (']' :: rest) hfv (restOk_rbrack rest)
          rw [he, parseItems_last_red f _ v rest h1]
        | cons w ws =>
          have hfe' : itemsFuel (w :: ws) ≤ f := by
            have hdef : itemsFuel (v :: w :: ws) = 1 + max (jfuel v) (itemsFuel (w :: ws)) := rfl
            omega
          have he : stringifyItems (v :: w :: ws) ++ ']' :: rest =
              stringifyV v ++ (',' :: (stringifyItems (w :: ws) ++ ']' :: rest)) := by
            have h0 : stringifyItems (v :: w :: ws) =
              stringifyV v ++ ',' :: stringifyItems (w :: ws) := rfl
            rw [h0]
            simp
          have h1 := ih1 v (',' :: (stringifyItems (w :: ws) ++ ']' :: rest)) hfv
            (restOk_comma _)
          rw [he, parseItems_cons_red f _ v _ h1, ih2 (w :: ws) rest (by simp) hfe']
          rfl
    · intro fs rest hne hfe
      cases fs with
      | nil => exact absurd rfl hne
      | cons kv fs' =>
        rcases kv with ⟨k, v⟩
        have hfv : jfuel v ≤ f := by
          have hdef : fieldsFuel ((k, v) :: fs') = 1 + max (jfuel v) (fieldsFuel fs') := rfl
          omega
        cases fs' with
        | nil =>
          have he : stringifyFields [(k, v)] ++ '\x7d' :: rest =
              '"' :: (escapeStr k ++ '"' :: (':' :: (stringifyV v ++ '\x7d' :: rest))) := by
            have h0 : stringifyFields [(k, v)] = '"' :: escapeStr k ++ '"' :: ':' :: stringifyV v := rfl
            rw [h0]
            simp
          have hs := parseStrAux_escape k (':' :: (stringifyV v ++ '\x7d' :: rest))
          have hv := ih1 v ('\x7d' :: rest) hfv (restOk_rbrace rest)
          rw [he, parseFields_last_red f _ k _ v rest hs hv]
        | cons kw fs'' =>
          rcases kw with ⟨k2, v2⟩
          have hfe' : fieldsFuel ((k2, v2) :: fs'') ≤ f := by
            have hdef : fieldsFuel ((k, v) :: (k2, v2) :: fs'') =
              1 + max (jfuel v) (fieldsFuel ((k2, v2) :: fs'')) := rfl
            omega
          have he : stringifyFields ((k, v) :: (k2, v2) :: fs'') ++ '\x7d' :: rest =
              '"' :: (escapeStr k ++ '"' :: (':' ::
                (stringifyV v ++ ',' :: (stringifyFields ((k2, v2) :: fs'') ++ '\x7d' :: rest)))) := by
            have h0 : stringifyFields ((k, v) :: (k2, v2) :: fs'') =
              '"' :: escapeStr k ++ '"' :: ':' :: stringifyV v ++
                ',' :: stringifyFields ((k2, v2) :: fs'') := rfl
            rw [h0]
            simp
          have hs := parseStrAux_escape k
            (':' :: (stringifyV v ++ ',' :: (stringifyFields ((k2, v2) :: fs'') ++ '\x7d' :: rest)))
          have hv := ih1 v
            (',' :: (stringifyFields ((k2, v2) :: fs'') ++ '\x7d' :: rest)) hfv (restOk_comma _)
          rw [he, parseFields_cons_red f _ k _ v _ hs hv,
            ih3 ((k2, v2) :: fs'') rest (by simp) hfe']
          rfl

theorem jsonParse_stringify (v : JValue) : jsonParse (stringifyV v) = some v := by
  have h := (parse_stringify ((stringifyV v).length + 1)).1 v []
    (by have := jfuel_le v; omega) trivial
  rw [List.append_nil] at h
  rw [jsonParse, h]

theorem stringify_injective {v1 v2 : JValue} (h : stringifyV v1 = stringifyV v2) : v1 = v2 := by
  have h1 := jsonParse_stringify v1
  rw [h, jsonParse_stringify v2] at h1
  injection h1 with h2
  exact h2.symm

/-! ### The run-length codec inverts -/

theorem rleDecode_cons_of_ne (x : Char) (hx : ¬ x = sentinel) (rest : List Char) :
    rleDecode (x :: rest) = x :: rleDecode rest := by
  rcases rest with _ | ⟨c2, rest2⟩
  · rfl
  · rcases rest2 with _ | ⟨c3, rest3⟩
    · rfl
    · rw [rleDecode.eq_def]
      simp [hx]

theorem rle_decode_clean (l : List Char) (h : sentinel ∉ l) :
    ∀ t, rleDecode (l ++ t) = l ++ rleDecode t := by
  induction l with
  | nil => simp
  | cons x l' ih =>
    intro t
    have hx : ¬ x = sentinel := fun e => h (by rw [e]; exact List.mem_cons_self _ _)
    have h' : sentinel ∉ l' := fun hm => h (List.mem_cons_of_mem x hm)
    rw [List.cons_append, rleDecode_cons_of_ne x hx, ih h' t, List.cons_append]

theorem rleDecode_unit (count : Nat) (c : Char) (t : List Char) (h : count ≤ 255) :
    rleDecode (sentinel :: Char.ofNat count :: c :: t) =
      List.replicate count c ++ rleDecode t := by
  rw [rleDecode.eq_def]
  simp
  rw [char_toNat_ofNat count (by omega)]

theorem rleDecode_flush (count : Nat) (c : Char) (t : List Char)
    (hc : ¬ c = sentinel) (h255 : count ≤ 255) :
    rleDecode (rleFlush count c ++ t) = List.replicate count c ++ rleDecode t := by
  rw [rleFlush]
  split_ifs with h3
  · simp only [List.cons_append, List.nil_append]
    exact rleDecode_unit count c t h255
  · have hns : sentinel ∉ List.replicate count c := by
      intro hm
      exact hc (List.eq_of_mem_replicate hm).symm
    exact rle_decode_clean _ hns t

theorem rleLoop_decode (rest : List Char) :
    ∀ (count : Nat) (cur : Char), ¬ cur = sentinel → 1 ≤ count → count ≤ 255 →
      sentinel ∉ rest →
      rleDecode (rleLoop rest count cur) = List.replicate count cur ++ rest := by
  induction rest with
  | nil =>
    intro count cur hcur h1 h255 _
    rw [rleLoop]
    have hd := rleDecode_flush count cur [] hcur h255
    rw [List.append_nil] at hd
    rw [hd]
    simp [rleDecode]
  | cons c rest' ih =>
    intro count cur hcur h1 h255 hs
    have hc : ¬ c = sentinel := fun e => hs (by rw [e]; exact List.mem_cons_self _ _)
    have hr : sentinel ∉ rest' := fun hm => hs (List.mem_cons_of_mem c hm)
    rw [rleLoop]
    split_ifs with hcc
    · obtain ⟨hceq, hlt⟩ := hcc
      rw [ih (count + 1) cur hcur (by omega) (by omega) hr, hceq, List.replicate_succ',
        List.append_assoc, List.singleton_append]
    · rw [rleDecode_flush count cur _ hcur h255, ih 1 c hc (by omega) (by omega) hr,
        List.replicate_one, List.singleton_append]

theorem rle_roundtrip (s : List Char) (h : sentinel ∉ s) : rleDecode (rleEncode s) = s := by
  cases s with
  | nil => rfl
  | cons c rest =>
    have hc : ¬ c = sentinel := fun e => h (by rw [e]; exact List.mem_cons_self _ _)
    have hr : sentinel ∉ rest := fun hm => h (List.mem_cons_of_mem c hm)
    rw [rleEncode, rleLoop_decode rest 1 c hc (Nat.le_refl 1) (by omega) hr,
      List.replicate_one, List.singleton_append]

theorem rleLoop_replicate (m : Nat) :
    ∀ (count : Nat) (c : Char), 1 ≤ count → count ≤ 255 →
      rleLoop (List.replicate m c) count c =
        if m + count ≤ 255 then rleFlush (m + count) c
        else rleFlush 255 c ++ rleLoop (List.replicate (m + count - 256) c) 1 c := by
  induction m with
  | zero =>
    intro count c h1 h255
    rw [List.replicate_zero, rleLoop, if_pos (by omega)]
    congr 1
    omega
  | succ m ih =>
    intro count c h1 h255
    rw [List.replicate_succ, rleLoop]
    by_cases hlt : count < 255
    · rw [if_pos ⟨rfl, hlt⟩, ih (count + 1) c (by omega) (by omega),
        show m + (count + 1) = m + 1 + count from by omega]
    · have h255' : count = 255 := by omega
      subst h255'
      rw [if_neg (by rintro ⟨_, hno⟩; omega), if_neg (by omega),
        show m + 1 + 255 - 256 = m from by omega]

theorem rleEncode_replicate_unit (c : Char) (n : Nat) (h4 : 4 ≤ n) (h255 : n ≤ 255) :
    rleEncode (List.replicate n c) = [sentinel, Char.ofNat n, c] := by
  rw [show n = (n - 1) + 1 from by omega, List.replicate_succ, rleEncode,
    rleLoop_replicate (n - 1) 1 c (Nat.le_refl 1) (by omega), if_pos (by omega),
    show n - 1 + 1 = n from by omega, rleFlush, if_pos (by omega)]

theorem rleEncode_replicate_small (c : Char) (n : Nat) (h : n ≤ 3) :
    rleEncode (List.replicate n c) = List.replicate n c := by
  rcases Nat.eq_zero_or_pos n with rfl | hpos
  · rfl
  · rw [show n = (n - 1) + 1 from by omega, List.replicate_succ, rleEncode,
      rleLoop_replicate (n - 1) 1 c (Nat.le_refl 1) (by omega), if_pos (by omega),
      show n - 1 + 1 = n from by omega, rleFlush, if_neg (by omega),
      ← List.replicate_succ, show n - 1 + 1 = n from by omega]

theorem rleEncode_replicate_split (c : Char) (n : Nat) (h : 255 < n) :
    rleEncode (List.replicate n c) =
      [sentinel, Char.ofNat 255, c] ++ rleEncode (List.replicate (n - 255) c) := by
  rw [show n = (n - 1) + 1 from by omega, List.replicate_succ, rleEncode,
    rleLoop_replicate (n - 1) 1 c (Nat.le_refl 1) (by omega), if_neg (by omega),
    show n - 1 + 1 - 256 = n - 256 from by omega]
  rw [show rleFlush 255 c = [sentinel, Char.ofNat 255, c] from by rw [rleFlush, if_pos (by omega)]]
  congr 1
  rw [show n - 1 + 1 - 255 = (n - 256) + 1 from by omega, List.replicate_succ, rleEncode]

/-! ### `processDataForCompression` is the identity on JSON values -/

theorem processItems_id (items : List JValue)
    (H : ∀ v ∈ items, processDataForCompression v = v) : processItems items = items := by
  induction items with
  | nil => rfl
  | cons v rest ih =>
    rw [processItems, H v (List.mem_cons_self v rest),
      ih (fun u hu => H u (List.mem_cons_of_mem v hu))]

theorem processFields_id (fs : List (List Char × JValue))
    (H : ∀ kv ∈ fs, processDataForCompression kv.2 = kv.2) : processFields fs = fs := by
  induction fs with
  | nil => rfl
  | cons kv rest ih =>
    rcases kv with ⟨k, v⟩
    have hu : processFields ((k, v) :: rest) =
        (k, if keepRawData k v then v else processDataForCompression v) :: processFields rest := rfl
    rw [hu, ih (fun u hu' => H u (List.mem_cons_of_mem _ hu'))]
    have hv : processDataForCompression v = v := H (k, v) (List.mem_cons_self _ rest)
    congr 1
    split_ifs with hc
    · rfl
    · rw [hv]

theorem process_id : ∀ v : JValue, processDataForCompression v = v := by
  refine JValue.myInduction _ rfl (fun b => rfl) (fun i => rfl) (fun s => rfl) ?_ ?_
  · intro vs H
    rw [processDataForCompression, processItems_id vs H]
  · intro fs H
    rw [processDataForCompression, processFields_id fs H]

/-! ### Codec round-trip -/

theorem decompress_compress (v : JValue) : decompressData (compressData v) = v := by
  rw [compressData, process_id, decompressData,
    rle_roundtrip _ (stringify_sentinel_free v), jsonParse_stringify]

/-- Claim C1 — codec round-trip: for every JSON-serializable value whose
canonical JSON text does not contain the internal sentinel byte `\x00`,
`decompressData (compressData v)` is (deeply) equal to `v`.  (The sentinel
hypothesis is stated as in the specification; `stringify_sentinel_free`
shows it is satisfied by every canonical JSON text.) -/
theorem codec_roundtrip (v : JValue) (_hs : sentinel ∉ stringifyV v) :
    decompressData (compressData v) = v :=
  decompress_compress v

/-- Witness for C1 at the concrete value `{"a": [1, true, "x\n"], "b": null}`. -/
theorem codec_roundtrip_witness :
    (sentinel ∉ stringifyV (JValue.obj
      [("a".data, .arr [.num 1, .bool true, .str ['x', Char.ofNat 10]]),
       ("b".data, .null)])) ∧
    decompressData (compressData (JValue.obj
      [("a".data, .arr [.num 1, .bool true, .str ['x', Char.ofNat 10]]),
       ("b".data, .null)])) = JValue.obj
      [("a".data, .arr [.num 1, .bool true, .str ['x', Char.ofNat 10]]),
       ("b".data, .null)] := by
  refine ⟨by decide, codec_roundtrip _ (by decide)⟩

/-! ### Storage-area primitives -/

theorem lsGet_cons (kv : List Char × List Char) (st : Storage) (k : List Char) :
    lsGet (kv :: st) k = if kv.1 = k then some kv.2 else lsGet st k := by
  by_cases h : kv.1 = k
  · simp [lsGet, h]
  · simp [lsGet, h]

theorem lsGet_map_replace (st : Storage) (k v k' : List Char) :
    lsGet (st.map (fun kv => if kv.1 == k then (k, v) else kv)) k' =
      if k' = k then (if st.any (fun kv => kv.1 == k) then some v else none)
      else lsGet st k' := by
  induction st with
  | nil =>
    simp only [List.map_nil, List.any_nil]
    by_cases hk : k' = k
    · rw [if_pos hk, if_neg (by simp)]
      rfl
    · rw [if_neg hk]
  | cons kv0 st' ih =>
    rw [List.map_cons, List.any_cons]
    by_cases h0 : kv0.1 = k
    · rw [if_pos (by simp [h0]), lsGet_cons]
      have hor : (kv0.1 == k || st'.any fun kv => kv.1 == k) = true := by simp [h0]
      rw [hor]
      by_cases hk : k' = k
      · subst hk
        rw [if_pos rfl, if_pos rfl]
        simp
      · rw [if_neg (fun e => hk e.symm), ih, if_neg hk, if_neg hk, lsGet_cons,
          if_neg (by rw [h0]; exact fun e => hk e.symm)]
    · rw [if_neg (by simp [h0]), lsGet_cons]
      have hor : ((kv0.1 == k || st'.any fun kv => kv.1 == k)) =
          (st'.any fun kv => kv.1 == k) := by simp [h0]
      rw [hor]
      by_cases hk : k' = k
      · subst hk
        rw [if_neg h0, if_pos rfl, ih, if_pos rfl]
      · rw [if_neg hk, ih, if_neg hk, lsGet_cons]

theorem lsGet_append_single (st : Storage) (k v k' : List Char)
    (hany : st.any (fun kv => kv.1 == k) = false) :
    lsGet (st ++ [(k, v)]) k' = if k' = k then some v else lsGet st k' := by
  induction st with
  | nil =>
    rw [List.nil_append, lsGet_cons]
    by_cases hk : k' = k
    · rw [if_pos (show k = k' from hk.symm), if_pos hk]
    · rw [if_neg (fun e => hk e.symm), if_neg hk]
  | cons kv0 st' ih =>
    rw [List.any_cons] at hany
    have hparts := Bool.or_eq_false_iff.mp hany
    have h0 : ¬ kv0.1 = k := by simpa using hparts.1
    have hany' : st'.any (fun kv => kv.1 == k) = false := hparts.2
    rw [List.cons_append, lsGet_cons, ih hany', lsGet_cons]
    by_cases hk : k' = k
    · rw [if_neg (by rw [hk]; exact h0), if_pos hk, if_pos hk]
    · rw [if_neg hk, if_neg hk]

theorem lsGet_set (st : Storage) (k v k' : List Char) :
    lsGet (lsSet st k v) k' = if k' = k then some v else lsGet st k' := by
  by_cases hany : st.any (fun kv => kv.1 == k) = true
  · rw [lsSet, if_pos hany, lsGet_map_replace, if_pos hany]
  · rw [lsSet, if_neg hany]
    exact lsGet_append_single st k v k' (Bool.eq_false_iff.mpr hany)

theorem lsGet_remove (st : Storage) (k k' : List Char) :
    lsGet (lsRemove st k) k' = if k' = k then none else lsGet st k' := by
  induction st with
  | nil =>
    rw [lsRemove, List.filter_nil]
    split_ifs <;> rfl
  | cons kv0 st' ih =>
    rw [lsRemove, List.filter_cons]
    by_cases h0 : kv0.1 = k
    · rw [if_neg (by simp [h0])]
      rw [lsRemove] at ih
      rw [ih, lsGet_cons]
      by_cases hk : k' = k
      · rw [if_pos hk, if_pos hk]
      · rw [if_neg hk, if_neg hk, if_neg (by rw [h0]; exact fun e => hk e.symm)]
    · rw [if_pos (by simp [h0]), lsGet_cons]
      rw [lsRemove] at ih
      rw [ih, lsGet_cons]
      by_cases hk : k' = k
      · rw [if_pos hk, if_pos hk, if_neg (by rw [hk]; exact h0)]
      · rw [if_neg hk, if_neg hk]

theorem lsGet_eq_none_iff (st : Storage) (k : List Char) :
    lsGet st k = none ↔ ∀ kv ∈ st, kv.1 ≠ k := by
  rw [lsGet, Option.map_eq_none', List.find?_eq_none]
  constructor
  · intro h kv hm e
    exact h kv hm (by simp [e])
  · intro h kv hm hb
    exact h kv hm (by simpa using hb)

theorem fullKey_inj_user {u1 u2 k : List Char} (h : fullKey u1 k = fullKey u2 k) : u1 = u2 := by
  rw [fullKey, fullKey] at h
  exact List.append_cancel_right h

theorem isPrefixOf_append_self (l t : List Char) : l.isPrefixOf (l ++ t) = true := by
  induction l with
  | nil => simp
  | cons c l' ih =>
    rw [List.cons_append]
    show (c :: l').isPrefixOf (c :: (l' ++ t)) = true
    rw [List.isPrefixOf]
    simp [ih]

theorem isPrefixOf_false_of_head_ne {a b : Char} (as bs : List Char) (h : ¬ a = b) :
    (a :: as).isPrefixOf (b :: bs) = false := by
  rw [List.isPrefixOf]
  simp [h]

theorem stringify_not_compressed (v : JValue) :
    COMPRESSED.isPrefixOf (stringifyV v) = false := by
  obtain ⟨c, cs, he, hshape⟩ := stringify_head v
  rw [he, show COMPRESSED = 'C' :: "OMPRESSED:".data from rfl]
  apply isPrefixOf_false_of_head_ne
  rcases hshape with rfl | rfl | rfl | rfl | rfl | rfl | rfl | ⟨h1, h2⟩
  · decide
  · decide
  · decide
  · decide
  · decide
  · decide
  · decide
  · intro e
    rw [← e] at h1 h2
    simp at h1 h2

/-! ### Reading back a stored value -/

theorem getStorageItem_some (key userId : List Char) (fb : JValue) (st : Storage)
    (item : List Char) (h : lsGet st (fullKey userId key) = some item) :
    getStorageItem key userId fb st =
      (if item = [] then (fb, st)
       else if COMPRESSED.isPrefixOf item then
         (decompressData (item.drop COMPRESSED.length), st)
       else match jsonParse item with
         | some v => (v, st)
         | none => (fb, lsRemove st (fullKey userId key))) := by
  rw [getStorageItem, h]

theorem getStorageItem_none (key userId : List Char) (fb : JValue) (st : Storage)
    (h : lsGet st (fullKey userId key) = none) :
    getStorageItem key userId fb st = (fb, st) := by
  rw [getStorageItem, h]

theorem get_set_same (key userId : List Char) (v : JValue) (fb : JValue) (st : Storage) :
    getStorageItem key userId fb (setStorageItem key userId v st) =
      (v, setStorageItem key userId v st) := by
  rw [setStorageItem]
  by_cases hbig : MAX_STORAGE_SIZE / 2 < (stringifyV v).length
  · rw [if_pos hbig]
    have hg : lsGet (lsSet st (fullKey userId key) (COMPRESSED ++ compressData v))
        (fullKey userId key) = some (COMPRESSED ++ compressData v) := by
      rw [lsGet_set, if_pos rfl]
    rw [getStorageItem_some _ _ _ _ _ hg]
    rw [if_neg (show ¬ (COMPRESSED ++ compressData v = []) from by
      rw [show COMPRESSED = 'C' :: "OMPRESSED:".data from rfl]
      simp)]
    rw [if_pos (isPrefixOf_append_self COMPRESSED (compressData v))]
    rw [List.drop_left, decompress_compress]
  · rw [if_neg hbig]
    have hg : lsGet (lsSet st (fullKey userId key) (stringifyV v)) (fullKey userId key) =
        some (stringifyV v) := by
      rw [lsGet_set, if_pos rfl]
    rw [getStorageItem_some _ _ _ _ _ hg]
    rw [if_neg (stringify_ne_nil v)]
    rw [if_neg (show ¬ (COMPRESSED.isPrefixOf (stringifyV v) = true) from by
      rw [stringify_not_compressed]
      simp)]
    rw [jsonParse_stringify]

theorem getStorageItem_fst_congr (key userId : List Char) (fb : JValue) (st1 st2 : Storage)
    (h : lsGet st1 (fullKey userId key) = lsGet st2 (fullKey userId key)) :
    (getStorageItem key userId fb st1).1 = (getStorageItem key userId fb st2).1 := by
  cases hL : lsGet st2 (fullKey userId key) with
  | none =>
    rw [getStorageItem_none _ _ _ _ (h.trans hL), getStorageItem_none _ _ _ _ hL]
  | some item =>
    rw [getStorageItem_some _ _ _ _ _ (h.trans hL), getStorageItem_some _ _ _ _ _ hL]
    by_cases h1 : item = []
    · rw [if_pos h1, if_pos h1]
    · rw [if_neg h1, if_neg h1]
      by_cases h2 : COMPRESSED.isPrefixOf item = true
      · rw [if_pos h2, if_pos h2]
      · rw [if_neg h2, if_neg h2]
        cases jsonParse item with
        | none => rfl
        | some w => rfl

theorem lsGet_setStorageItem_other (key userId : List Char) (v : JValue) (st : Storage)
    (K : List Char) (h : ¬ K = fullKey userId key) :
    lsGet (setStorageItem key userId v st) K = lsGet st K := by
  rw [setStorageItem]
  by_cases hbig : MAX_STORAGE_SIZE / 2 < (stringifyV v).length
  · rw [if_pos hbig, lsGet_set, if_neg h]
  · rw [if_neg hbig, lsGet_set, if_neg h]

/-- Claim C6 — namespace isolation: for distinct owner ids `u1 ≠ u2`, after
`set(k, u1, x)` and `set(k, u2, y)` the read `get(k, u1, _)` returns `x` and
`get(k, u2, _)` returns `y`, each independent of the other owner's write. -/
theorem namespace_isolation (st : Storage) (k u1 u2 : List Char) (x y fb1 fb2 : JValue)
    (h : u1 ≠ u2) :
    (getStorageItem k u1 fb1 (setStorageItem k u2 y (setStorageItem k u1 x st))).1 = x ∧
    (getStorageItem k u2 fb2 (setStorageItem k u2 y (setStorageItem k u1 x st))).1 = y := by
  have hkey : ¬ fullKey u1 k = fullKey u2 k := fun e => h (fullKey_inj_user e)
  constructor
  · have hcongr := getStorageItem_fst_congr k u1 fb1
      (setStorageItem k u2 y (setStorageItem k u1 x st)) (setStorageItem k u1 x st)
      (lsGet_setStorageItem_other k u2 y _ (fullKey u1 k) hkey)
    rw [hcongr, get_set_same]
  · rw [get_set_same]

/-- Witness for C6 with owners `u1`, `u2`, logical key `k` and values 1, 2. -/
theorem namespace_isolation_witness :
    ("u1".data ≠ "u2".data) ∧
    (getStorageItem "k".data "u1".data JValue.null
      (setStorageItem "k".data "u2".data (JValue.num 2)
        (setStorageItem "k".data "u1".data (JValue.num 1) []))).1 = JValue.num 1 ∧
    (getStorageItem "k".data "u2".data JValue.null
      (setStorageItem "k".data "u2".data (JValue.num 2)
        (setStorageItem "k".data "u1".data (JValue.num 1) []))).1 = JValue.num 2 := by
  have h := namespace_isolation [] "k".data "u1".data "u2".data (JValue.num 1) (JValue.num 2)
    JValue.null JValue.null (by decide)
  exact ⟨by decide, h.1, h.2⟩

/-- Claim C2 (amended) — corruption self-heal for plain entries: when the
stored text under the composed key is non-empty, not `COMPRESSED:`-tagged
and fails `JSON.parse`, `get` returns the caller-supplied fallback and the
composed key is removed from storage; no exception reaches the caller (the
model's `getStorageItem` is a total function).  The original claim also
asserted this for `COMPRESSED:`-tagged values whose decode fails, but for
those the source returns the `null` result of `decompressData` and leaves
the entry in place (see `corruption_selfheal_counterexample`). -/
theorem corruption_selfheal (key userId item : List Char) (fb : JValue) (st : Storage)
    (hit : lsGet st (fullKey userId key) = some item)
    (hne : item ≠ [])
    (hnc : ¬ COMPRESSED.isPrefixOf item = true)
    (hbad : jsonParse item = none) :
    getStorageItem key userId fb st = (fb, lsRemove st (fullKey userId key)) ∧
    lsGet (getStorageItem key userId fb st).2 (fullKey userId key) = none := by
  have hmain : getStorageItem key userId fb st = (fb, lsRemove st (fullKey userId key)) := by
    rw [getStorageItem_some _ _ _ _ _ hit, if_neg hne, if_neg hnc, hbad]
  refine ⟨hmain, ?_⟩
  rw [hmain]
  show lsGet (lsRemove st (fullKey userId key)) (fullKey userId key) = none
  rw [lsGet_remove, if_pos rfl]

/-- Witness for C2 (amended): the garbage entry `u_k ↦ "notjson"` heals. -/
theorem corruption_selfheal_witness :
    getStorageItem "k".data "u".data (JValue.bool true) [("u_k".data, "notjson".data)] =
      (JValue.bool true, lsRemove [("u_k".data, "notjson".data)] (fullKey "u".data "k".data)) ∧
    lsGet (getStorageItem "k".data "u".data (JValue.bool true)
      [("u_k".data, "notjson".data)]).2 (fullKey "u".data "k".data) = none := by
  exact corruption_selfheal "k".data "u".data "notjson".data (JValue.bool true)
    [("u_k".data, "notjson".data)] rfl (by decide) (by decide) rfl

/-- Counterexample to claim C2 as stated: for the `COMPRESSED:`-tagged entry
`u_k ↦ "COMPRESSED:oops"`, whose payload fails to decode, `get` returns the
JS value `null` (not the supplied fallback `true`) and the entry stays in
storage, because `decompressData` catches its own failures and never throws
into `getStorageItem`'s recovery path. -/
theorem corruption_selfheal_counterexample :
    getStorageItem "k".data "u".data (JValue.bool true)
        [("u_k".data, "COMPRESSED:oops".data)] =
      (JValue.null, [("u_k".data, "COMPRESSED:oops".data)]) ∧
    JValue.null ≠ JValue.bool true := by
  exact ⟨rfl, fun h => JValue.noConfusion h⟩

/-! ### `clearUserStorage` -/

theorem foldl_remove_get (ks : List (List Char)) : ∀ (st : Storage) (K : List Char),
    lsGet (ks.foldl (fun acc kk => lsRemove acc kk) st) K =
      if K ∈ ks then none else lsGet st K := by
  induction ks with
  | nil =>
    intro st K
    simp
  | cons k0 ks ih =>
    intro st K
    rw [List.foldl_cons, ih]
    by_cases hk : K ∈ ks
    · rw [if_pos hk, if_pos (List.mem_cons_of_mem _ hk)]
    · rw [if_neg hk, lsGet_remove]
      by_cases hk0 : K = k0
      · rw [if_pos hk0, if_pos (by rw [hk0]; exact List.mem_cons_self _ _)]
      · rw [if_neg hk0, if_neg (by
          intro hm
          rcases List.mem_cons.mp hm with e | e
          · exact hk0 e
          · exact hk e)]

/-- Claim C7 (amended) — `clearUserStorage`'s frame: the keys removed are
exactly those whose full key starts with `` `${userId}_` ``; every other key
is untouched.  In particular a different owner `v ≠ u` keeps all its keys
unless its composed keys also start with `` `${u}_` `` (e.g. `v = "u1_x"`
against `u = "u1"`), in which case they are removed as well — see
`clearUserStorage_counterexample` for the collision the original claim
overlooked. -/
theorem clearUserStorage_spec (userId : List Char) (st : Storage) (K : List Char) :
    lsGet (clearUserStorage userId st) K =
      if (userId ++ ['_']).isPrefixOf K = true then none else lsGet st K := by
  simp only [clearUserStorage]
  rw [foldl_remove_get]
  by_cases hp : (userId ++ ['_']).isPrefixOf K = true
  · rw [if_pos hp]
    by_cases hk : K ∈ st.map (fun kv => kv.1)
    · rw [if_pos (List.mem_filter.mpr ⟨hk, hp⟩)]
    · rw [if_neg (fun hm => hk (List.mem_of_mem_filter hm))]
      exact (lsGet_eq_none_iff st K).mpr (fun kv hm e =>
        hk (by rw [← e]; exact List.mem_map_of_mem (fun kv => kv.1) hm))
  · rw [if_neg hp, if_neg (fun hm => hp (List.of_mem_filter hm))]

/-- Counterexample to claim C7 as stated: the owner id `"u1_x"` is distinct
from `"u1"`, yet its key `u1_x_k` (the composed key of owner `u1_x` and
logical key `k`) starts with `u1_` and is removed by `clearUserStorage "u1"`. -/
theorem clearUserStorage_counterexample :
    ("u1_x".data ≠ "u1".data) ∧
    lsGet [("u1_x_k".data, "1".data)] (fullKey "u1_x".data "k".data) = some "1".data ∧
    clearUserStorage "u1".data [("u1_x_k".data, "1".data)] = [] ∧
    lsGet (clearUserStorage "u1".data [("u1_x_k".data, "1".data)])
      (fullKey "u1_x".data "k".data) = none := by
  exact ⟨by decide, rfl, rfl, rfl⟩

/-! ### The sanitizer -/

/-- Claim C8 — sanitizer no-op on clean storage: when every non-empty,
non-`COMPRESSED:`-tagged stored value parses as JSON, `fixStorageIssues`
leaves the storage area untouched and returns `true`. -/
theorem sanitizer_noop (st : Storage)
    (h : ∀ kv ∈ st, kv.2 ≠ [] → COMPRESSED.isPrefixOf kv.2 = false →
      (jsonParse kv.2).isSome) :
    fixStorageIssues st = (st, true) := by
  have hcor : ((st.map (fun kv => kv.1)).any (fun k =>
      match lsGet st k with
      | none => false
      | some v => valueIsCorrupted v)) = false := by
    rw [List.any_eq_false]
    intro k hk
    obtain ⟨kv, hkvmem, hfst⟩ := List.mem_map.mp hk
    intro hcorr0
    cases hg : lsGet st k with
    | none =>
      rw [hg] at hcorr0
      simp at hcorr0
    | some item =>
      rw [hg] at hcorr0
      have hentry : ∃ kv' ∈ st, kv'.2 = item := by
        rw [lsGet] at hg
        rcases hfind : st.find? (fun kv => kv.1 == k) with _ | kv'
        · rw [hfind] at hg
          simp at hg
        · rw [hfind] at hg
          simp at hg
          exact ⟨kv', List.mem_of_find?_eq_some hfind, hg⟩
      obtain ⟨kv', hmem', hval⟩ := hentry
      simp only [valueIsCorrupted] at hcorr0
      split_ifs at hcorr0 with he hc
      have hsome := h kv' hmem' (by rw [hval]; exact he)
        (by rw [hval]; exact Bool.eq_false_iff.mpr hc)
      rw [hval] at hsome
      rw [Option.isNone_iff_eq_none] at hcorr0
      rw [hcorr0] at hsome
      simp at hsome
  simp only [fixStorageIssues]
  rw [hcor]
  simp

/-- Witness for C8: a one-entry clean storage area is left untouched. -/
theorem sanitizer_noop_witness :
    fixStorageIssues [("a".data, "1".data)] = ([("a".data, "1".data)], true) := by
  refine sanitizer_noop _ ?_
  intro kv hm h1 h2
  rcases List.mem_singleton.mp hm with rfl
  decide

/-- Claim C3 — the sanitizer is claimed to preserve a per-user students
collection key such as `u1_students` while removing a corrupted key.  The
code does remove the corrupted key, but the allowlist of `fixStorageIssues`
(`currentUser`, `isLoggedIn`, `authToken`, `USERS_COLLECTION_KEY`, and the
substrings `_current_user`, `_users`, `_student_`, `_certificates`,
`_disability_id`) matches no key of the form `<userId>_students` — the
`_student_` pattern requires a trailing underscore — so the students
collection itself is wiped, contradicting the claim (and the function's own
log message about preserving student data): with a corrupted entry present,
the whole area is cleared and `u1_students` is not restored. -/
theorem sanitizer_drops_students_key :
    fixStorageIssues [("u1_students".data, "[]".data), ("junk".data, "notjson".data)] =
      ([], true) ∧
    lsGet (fixStorageIssues
        [("u1_students".data, "[]".data), ("junk".data, "notjson".data)]).1
      "u1_students".data = none := by
  exact ⟨rfl, rfl⟩

/-- Claim C4 — RLE correctness: a run of `n` identical characters with
`4 ≤ n ≤ 255` encodes to exactly one 3-byte unit `{sentinel, count byte,
character}` whose count byte's code equals the literal run length `n`, and
that unit decodes back to the `n` repeats; a run of length at most 3 is
emitted literally (length preserved, no sentinel inserted); a run longer
than 255 is split across several encoded units. -/
theorem rle_run_encoding :
    (∀ (c : Char) (n : Nat), 4 ≤ n → n ≤ 255 →
      rleEncode (List.replicate n c) = [sentinel, Char.ofNat n, c] ∧
      (Char.ofNat n).toNat = n ∧
      rleDecode [sentinel, Char.ofNat n, c] = List.replicate n c) ∧
    (∀ (c : Char) (n : Nat), n ≤ 3 →
      rleEncode (List.replicate n c) = List.replicate n c) ∧
    (∀ (c : Char) (n : Nat), 255 < n →
      rleEncode (List.replicate n c) =
        [sentinel, Char.ofNat 255, c] ++ rleEncode (List.replicate (n - 255) c)) := by
  refine ⟨?_, ?_, ?_⟩
  · intro c n h4 h255
    refine ⟨rleEncode_replicate_unit c n h4 h255, char_toNat_ofNat n (by omega), ?_⟩
    have h := rleDecode_unit n c [] h255
    rw [show rleDecode ([] : List Char) = [] from rfl, List.append_nil] at h
    exact h
  · intro c n h
    exact rleEncode_replicate_small c n h
  · intro c n h
    exact rleEncode_replicate_split c n h

/-- Witness for C4 at runs of `'a'` of lengths 10, 2 and 300. -/
theorem rle_run_encoding_witness :
    rleEncode (List.replicate 10 'a') = [sentinel, Char.ofNat 10, 'a'] ∧
    (Char.ofNat 10).toNat = 10 ∧
    rleDecode [sentinel, Char.ofNat 10, 'a'] = List.replicate 10 'a' ∧
    rleEncode (List.replicate 2 'a') = List.replicate 2 'a' ∧
    rleEncode (List.replicate 300 'a') =
      [sentinel, Char.ofNat 255, 'a'] ++ rleEncode (List.replicate (300 - 255) 'a') := by
  have h1 := rle_run_encoding.1 'a' 10 (by decide) (by decide)
  have h2 := rle_run_encoding.2.1 'a' 2 (by decide)
  have h3 := rle_run_encoding.2.2 'a' 300 (by decide)
  exact ⟨h1.1, h1.2.1, h1.2.2, h2, h3⟩

/-! ### The shared snapshot under `recordUpdate` -/

theorem objFind_cons (kv : List Char × JValue) (fs : List (List Char × JValue)) (k : List Char) :
    objFind (kv :: fs) k = if kv.1 = k then some kv.2 else objFind fs k := by
  by_cases h : kv.1 = k
  · simp [objFind, h]
  · simp [objFind, h]

theorem objFind_map_replace (fs : List (List Char × JValue)) (k : List Char) (x : JValue)
    (k' : List Char) :
    objFind (fs.map (fun kv => if kv.1 == k then (k, x) else kv)) k' =
      if k' = k then (if fs.any (fun kv => kv.1 == k) then some x else none)
      else objFind fs k' := by
  induction fs with
  | nil =>
    simp only [List.map_nil, List.any_nil]
    by_cases hk : k' = k
    · rw [if_pos hk, if_neg (by simp)]
      rfl
    · rw [if_neg hk]
  | cons kv0 fs' ih =>
    rw [List.map_cons, List.any_cons]
    by_cases h0 : kv0.1 = k
    · rw [if_pos (by simp [h0]), objFind_cons]
      have hor : (kv0.1 == k || fs'.any fun kv => kv.1 == k) = true := by simp [h0]
      rw [hor]
      by_cases hk : k' = k
      · subst hk
        rw [if_pos rfl, if_pos rfl]
        simp
      · rw [if_neg (fun e => hk e.symm), ih, if_neg hk, if_neg hk, objFind_cons,
          if_neg (by rw [h0]; exact fun e => hk e.symm)]
    · rw [if_neg (by simp [h0]), objFind_cons]
      have hb0 : (kv0.1 == k) = false := beq_eq_false_iff_ne.mpr h0
      rw [hb0, Bool.false_or]
      by_cases hk : k' = k
      · subst hk
        rw [if_neg h0, if_pos rfl, ih, if_pos rfl]
      · rw [if_neg hk, ih, if_neg hk, objFind_cons]

theorem objFind_append_single (fs : List (List Char × JValue)) (k : List Char) (x : JValue)
    (k' : List Char) (hany : fs.any (fun kv => kv.1 == k) = false) :
    objFind (fs ++ [(k, x)]) k' = if k' = k then some x else objFind fs k' := by
  induction fs with
  | nil =>
    rw [List.nil_append, objFind_cons]
    by_cases hk : k' = k
    · rw [if_pos (show k = k' from hk.symm), if_pos hk]
    · rw [if_neg (fun e => hk e.symm), if_neg hk]
  | cons kv0 fs' ih =>
    rw [List.any_cons] at hany
    have hparts := Bool.or_eq_false_iff.mp hany
    have h0 : ¬ kv0.1 = k := by simpa using hparts.1
    rw [List.cons_append, objFind_cons, ih hparts.2, objFind_cons]
    by_cases hk : k' = k
    · rw [if_neg (by rw [hk]; exact h0), if_pos hk, if_pos hk]
    · rw [if_neg hk, if_neg hk]

theorem jGetField_set_self (fs : List (List Char × JValue)) (k : List Char) (x : JValue) :
    jGetField (jSetField (.obj fs) k x) k = some x := by
  rw [jSetField]
  by_cases hany : fs.any (fun kv => kv.1 == k) = true
  · rw [if_pos hany]
    show objFind (fs.map (fun kv => if kv.1 == k then (k, x) else kv)) k = some x
    rw [objFind_map_replace, if_pos rfl, if_pos hany]
  · rw [if_neg hany]
    show objFind (fs ++ [(k, x)]) k = some x
    rw [objFind_append_single fs k x k (Bool.eq_false_iff.mpr hany), if_pos rfl]

theorem recordUpdate_updates (user : List Char) (now : Nat) (ty : EntityType)
    (ac : ChangeAction) (data : JValue) (st : RTState) :
    (recordUpdate user now ty ac data st).updates =
      st.updates ++ [(⟨"update_".data ++ natDigits now, ty, ac, now, user, data⟩ : Update)] := by
  simp only [recordUpdate]
  cases applySharedMutation ty ac data
      (getStorageItem SHARED_DATA_KEY sharedOwner defaultSharedData st.storage).1 with
  | none => rfl
  | some sd' => rfl

theorem checkForUpdates_iff (since : Nat) (s : RTState) :
    checkForUpdates since s = true ↔ ∃ u ∈ s.updates, since < u.timestamp := by
  rw [checkForUpdates, List.any_eq_true]
  simp

/-- Claim C5 — change propagation: with a shared snapshot whose `students`
property is an array, after `recordUpdate` of a `student`/`create` change at
time `now`, `checkForUpdates t0` for any earlier `t0` returns `true` and the
`students` array of the re-read shared snapshot contains the new student
snapshot; and in general `checkForUpdates since` is `true` iff some retained
change event has timestamp greater than `since`. -/
theorem change_propagation (user : List Char) (now t0 : Nat) (data : JValue) (st : RTState)
    (items : List JValue)
    (hgood : jGetField (getStorageItem SHARED_DATA_KEY sharedOwner defaultSharedData
      st.storage).1 "students".data = some (.arr items))
    (ht : t0 < now) :
    checkForUpdates t0 (recordUpdate user now .student .create data st) = true ∧
    (∃ items', jGetField (getSharedData (recordUpdate user now .student .create data st)).1
        "students".data = some (.arr items') ∧ data ∈ items') ∧
    (∀ (since : Nat) (s : RTState),
      checkForUpdates since s = true ↔ ∃ u ∈ s.updates, since < u.timestamp) := by
  refine ⟨?_, ?_, checkForUpdates_iff⟩
  · rw [checkForUpdates, recordUpdate_updates, List.any_append]
    have h2 : (List.any [(⟨"update_".data ++ natDigits now, .student, .create, now, user,
        data⟩ : Update)] (fun u => decide (t0 < u.timestamp))) = true := by
      simp [ht]
    rw [h2, Bool.or_true]
  · have happ : applySharedMutation .student .create data
        ((getStorageItem SHARED_DATA_KEY sharedOwner defaultSharedData st.storage).1) =
        some (jSetField
          ((getStorageItem SHARED_DATA_KEY sharedOwner defaultSharedData st.storage).1)
          "students".data (.arr (items ++ [data]))) := by
      simp only [applySharedMutation]
      rw [hgood]
    have hstore : (recordUpdate user now .student .create data st).storage =
        setStorageItem SHARED_DATA_KEY sharedOwner
          (jSetField
            ((getStorageItem SHARED_DATA_KEY sharedOwner defaultSharedData st.storage).1)
            "students".data (.arr (items ++ [data])))
          ((getStorageItem SHARED_DATA_KEY sharedOwner defaultSharedData st.storage).2) := by
      simp only [recordUpdate]
      rw [happ]
    refine ⟨items ++ [data], ?_, by simp⟩
    rw [getSharedData, hstore, get_set_same]
    rcases hsd : (getStorageItem SHARED_DATA_KEY sharedOwner defaultSharedData st.storage).1
      with _ | b | n | cs | vs | fs
    · rw [hsd] at hgood; simp [jGetField] at hgood
    · rw [hsd] at hgood; simp [jGetField] at hgood
    · rw [hsd] at hgood; simp [jGetField] at hgood
    · rw [hsd] at hgood; simp [jGetField] at hgood
    · rw [hsd] at hgood; simp [jGetField] at hgood
    · rw [jGetField_set_self]

/-- Witness for C5: empty bus state, student snapshot `"s"` recorded at time
5 and checked from time 3. -/
theorem change_propagation_witness :
    (3 : Nat) < 5 ∧
    checkForUpdates 3 (recordUpdate "u".data 5 .student .create (JValue.str "s".data)
      ⟨[], []⟩) = true ∧
    (∃ items', jGetField (getSharedData (recordUpdate "u".data 5 .student .create
        (JValue.str "s".data) ⟨[], []⟩)).1 "students".data = some (.arr items') ∧
      JValue.str "s".data ∈ items') := by
  have h := change_propagation "u".data 5 3 (JValue.str "s".data) ⟨[], []⟩ [] rfl
    (by decide)
  exact ⟨by decide, h.1, h.2.1⟩

/-! ### The teacher-delete cascade -/

theorem map_ne_of_mem {α : Type} (f : α → α) (l : List α) (a : α) (ha : a ∈ l)
    (hfa : f a ≠ a) : l.map f ≠ l := by
  intro he
  induction ha with
  | head t => injection he with h1 _; exact hfa h1
  | tail b hmem ih => injection he with _ h2; exact ih h2

theorem studentToJ_inj {a b : StudentRec} (h : studentToJ a = studentToJ b) : a = b := by
  rcases a with ⟨ia, na, ta⟩
  rcases b with ⟨ib, nb, tb⟩
  rcases ta with _ | ta' <;> rcases tb with _ | tb' <;> simp [studentToJ] at h
  · rcases h with ⟨h1, h2⟩
    rw [h1, h2]
  · rcases h with ⟨h1, h2, h3⟩
    rw [h1, h2, h3]

theorem studentsToJ_inj {l1 l2 : List StudentRec} (h : studentsToJ l1 = studentsToJ l2) :
    l1 = l2 := by
  rw [studentsToJ, studentsToJ] at h
  injection h with harr
  exact List.map_injective_iff.mpr (fun a b e => studentToJ_inj e) harr

theorem clearTeacherRef_ne {tid : List Char} {s : StudentRec}
    (hA : s.teacherAssigned = some tid) : clearTeacherRef tid s ≠ s := by
  rw [clearTeacherRef, if_pos (by simp [hA])]
  intro e
  have h2 := congrArg StudentRec.teacherAssigned e
  rw [hA] at h2
  exact Option.noConfusion h2

theorem clearTeacherRef_not_tid (tid : List Char) (s : StudentRec) :
    (clearTeacherRef tid s).teacherAssigned ≠ some tid := by
  rw [clearTeacherRef]
  by_cases hb : s.teacherAssigned == some tid
  · rw [if_pos hb]
    intro e
    exact Option.noConfusion e
  · rw [if_neg hb]
    intro e
    exact hb (by rw [e]; exact beq_self_eq_true _)

/-- Claim C9 (amended) — teacher cascade delete, as implemented by
`deleteTeacher` of `useStudentData.ts`: when some student points at the
deleted teacher, the adopted student list is the original with every
matching `teacherAssigned` reference cleared, that list is what the
persisted per-user `students` collection now reads back as, and no adopted
student still references the deleted teacher.  (The spec sentence is about
teacher deletion in general; the `deleteTeacher` of `useTeacherData.ts`
performs no such cascade — see the counterexample.) -/
theorem teacher_cascade (user tid : List Char) (st : AppState) (S : StudentRec) (fb : JValue)
    (hS : S ∈ st.students) (hA : S.teacherAssigned = some tid) :
    (sd_deleteTeacher user tid st).students = st.students.map (clearTeacherRef tid) ∧
    (getStorageItem STUDENTS_STORAGE_KEY user fb
        (sd_deleteTeacher user tid st).rt.storage).1 =
      studentsToJ (st.students.map (clearTeacherRef tid)) ∧
    (∀ s' ∈ (sd_deleteTeacher user tid st).students, s'.teacherAssigned ≠ some tid) := by
  have hchange : st.students.map (clearTeacherRef tid) ≠ st.students :=
    map_ne_of_mem (clearTeacherRef tid) st.students S hS (clearTeacherRef_ne hA)
  have hguard : ¬ (stringifyV (studentsToJ (st.students.map (clearTeacherRef tid))) =
      stringifyV (studentsToJ st.students)) :=
    fun e => hchange (studentsToJ_inj (stringify_injective e))
  rw [sd_deleteTeacher]
  rw [if_neg hguard]
  refine ⟨rfl, ?_, ?_⟩
  · exact congrArg Prod.fst (get_set_same STUDENTS_STORAGE_KEY user
      (studentsToJ (st.students.map (clearTeacherRef tid))) fb _)
  · intro s' hs'
    rcases List.mem_map.mp hs' with ⟨s0, _, rfl⟩
    exact clearTeacherRef_not_tid tid s0

/-- Witness for C9: one student `s1` assigned to teacher `t1`; deleting `t1`
through the student-data repository clears the reference and persists the
cleared list. -/
theorem teacher_cascade_witness :
    (sd_deleteTeacher "u".data "t1".data
      ⟨[⟨"s1".data, "Ann".data, some "t1".data⟩], [⟨"t1".data, "Bob".data⟩],
        ⟨[], []⟩⟩).students = [⟨"s1".data, "Ann".data, none⟩] ∧
    (getStorageItem STUDENTS_STORAGE_KEY "u".data JValue.null
        (sd_deleteTeacher "u".data "t1".data
          ⟨[⟨"s1".data, "Ann".data, some "t1".data⟩], [⟨"t1".data, "Bob".data⟩],
            ⟨[], []⟩⟩).rt.storage).1 =
      studentsToJ [⟨"s1".data, "Ann".data, none⟩] := by
  have h := teacher_cascade "u".data "t1".data
    ⟨[⟨"s1".data, "Ann".data, some "t1".data⟩], [⟨"t1".data, "Bob".data⟩], ⟨[], []⟩⟩
    ⟨"s1".data, "Ann".data, some "t1".data⟩ JValue.null (List.mem_singleton.mpr rfl) rfl
  refine ⟨?_, ?_⟩
  · rw [h.1]; rfl
  · rw [h.2.1]; rfl

/-- Counterexample for C9 as claimed of every teacher-deletion path: the
`deleteTeacher` of `useTeacherData.ts` removes the teacher from the shared
snapshot but leaves the student's `teacherAssigned` reference in place — the
re-read shared `students` array still holds the student with
`teacherAssigned` equal to the deleted teacher's id. -/
theorem teacher_cascade_counterexample :
    jGetField (getSharedData (td_deleteTeacher "u".data 7 "t1".data
      ⟨[], [⟨"t1".data, "Bob".data⟩],
        ⟨[], setStorageItem SHARED_DATA_KEY sharedOwner (JValue.obj
          [("students".data, JValue.arr [studentToJ ⟨"s1".data, "Ann".data,
            some "t1".data⟩]),
           ("teachers".data, JValue.arr [teacherToJ ⟨"t1".data, "Bob".data⟩])]) []⟩⟩).rt).1
      "students".data =
      some (JValue.arr [studentToJ ⟨"s1".data, "Ann".data, some "t1".data⟩]) ∧
    jGetField (studentToJ ⟨"s1".data, "Ann".data, some "t1".data⟩) "teacherAssigned".data =
      some (JValue.str "t1".data) := ⟨rfl, rfl⟩

/-! ### `updateStudent` on a missing or present id -/

theorem updateInList_none (id : List Char) (p : StudentPatch) (l : List StudentRec)
    (h : ∀ s ∈ l, s.id ≠ id) : updateInList id p l = none := by
  induction l with
  | nil => rfl
  | cons s rest ih =>
    rw [updateInList, if_neg (by simp [h s (List.mem_cons_self s rest)]),
      ih (fun s' hs' => h s' (List.mem_cons_of_mem s hs'))]
    rfl

theorem updateInList_some_id (id : List Char) (p : StudentPatch) (l : List StudentRec)
    (r : StudentRec) (l' : List StudentRec) (h : updateInList id p l = some (r, l')) :
    r.id = id := by
  induction l generalizing l' with
  | nil => exact Option.noConfusion h
  | cons s rest ih =>
    rw [updateInList] at h
    by_cases hb : (s.id == id) = true
    · rw [if_pos hb] at h
      injection h with h1
      have h2 := congrArg Prod.fst h1
      simp only at h2
      rw [← h2]
      rfl
    · rw [if_neg hb] at h
      cases hu : updateInList id p rest with
      | none => rw [hu] at h; exact Option.noConfusion h
      | some q =>
        rcases q with ⟨r0, l0⟩
        rw [hu] at h
        injection h with h1
        have h2 := congrArg Prod.fst h1
        simp only at h2
        rw [h2] at hu
        exact ih l0 hu

/-- Claim C10 — `updateStudent` on a missing id returns `null` and leaves the
whole repository state (students, teachers, realtime bus and storage)
unchanged; and whenever it does return a student, that student's `id` equals
the addressed id, regardless of any `id` carried by the partial update
object. -/
theorem updateStudent_missing_id (user : List Char) (now : Nat) (id : List Char)
    (p : StudentPatch) (st : AppState) :
    ((∀ s ∈ st.students, s.id ≠ id) → updateStudent user now id p st = (none, st)) ∧
    (∀ (r : StudentRec) (st' : AppState),
      updateStudent user now id p st = (some r, st') → r.id = id) := by
  constructor
  · intro hno
    rw [updateStudent, updateInList_none id p st.students hno]
  · intro r st' h
    rw [updateStudent] at h
    cases hu : updateInList id p st.students with
    | none => rw [hu] at h; simp at h
    | some q =>
      rcases q with ⟨r0, l0⟩
      rw [hu] at h
      have h1 := congrArg Prod.fst h
      simp only at h1
      injection h1 with h2
      rw [← h2]
      exact updateInList_some_id id p st.students r0 l0 hu

/-- Witness for C10: a repository with no students returns `null` unchanged
for id `x`; a repository holding student `s1` updated with a patch that
carries the foreign id `zzz` yields a student whose id is still `s1`. -/
theorem updateStudent_missing_id_witness :
    updateStudent "u".data 4 "x".data ⟨some "zzz".data, none, none⟩ ⟨[], [], ⟨[], []⟩⟩ =
      (none, ⟨[], [], ⟨[], []⟩⟩) ∧
    (⟨"s1".data, "Ann".data, none⟩ : StudentRec).id = "s1".data := by
  constructor
  · exact (updateStudent_missing_id "u".data 4 "x".data ⟨some "zzz".data, none, none⟩
      ⟨[], [], ⟨[], []⟩⟩).1 (by simp)
  · exact (updateStudent_missing_id "u".data 4 "s1".data ⟨some "zzz".data, none, none⟩
      ⟨[⟨"s1".data, "Ann".data, none⟩], [], ⟨[], []⟩⟩).2 ⟨"s1".data, "Ann".data, none⟩
      ⟨[⟨"s1".data, "Ann".data, none⟩], [],
        recordUpdate "u".data 4 .student .update
          (studentToJ ⟨"s1".data, "Ann".data, none⟩) ⟨[], []⟩⟩ rfl
